import Mathlib

/-!
Verification development for the JSONParser repository (src/JSONParser):
a C++ JSON value model (`struct Json` over `std::variant`), a
recursive-descent parser (`class JsonParser` in Json.cpp) and a serializer
(`Json::stringify`).  The C++ code is shallowly embedded below:

* `Json` mirrors `std::variant<std::nullptr_t, bool, double, std::string,
  JsonArray, JsonObject>`.  Strings are byte strings, modelled as `List Char`
  (each `Char` standing for one byte).  `double` is modelled as `Rat`: the
  development treats `std::stod` as exact decimal conversion, so
  double-rounding / overflow behaviour is outside the model (the spec calls
  these float-precision edge cases).
* `JsonObject = std::map<std::string, Json>` is modelled as an association
  list strictly sorted by the `std::string` byte-wise order (`keyLt`), with
  `mapInsert` modelling `operator[]` assignment (insert-or-overwrite).
* The parser is embedded in consumption style: each routine takes the
  remaining input suffix together with the absolute byte position `pos_`
  (the only state of `JsonParser`), and returns the value, the remaining
  suffix and the new position, or a `JsonParseError` with message and byte
  offset exactly as thrown by the C++ code.  The mutual recursion of
  `parse_value` / `parse_array` / `parse_object` is totalised by a fuel
  parameter; the top-level `Json.parse` supplies fuel that is large enough
  for every terminating run on the given input.
-/

namespace JsonCpp

/-- Byte classifier for `std::isspace` in the C locale: space, `\t`, `\n`,
vertical tab, form feed, `\r` (Json.cpp line 217). -/
def isspaceB (c : Char) : Bool :=
  c = ' ' || c = '\t' || c = '\n' || c = '\x0b' || c = '\x0c' || c = '\r'

/-- Byte classifier for `std::isdigit` in the C locale. -/
def isdigitB (c : Char) : Bool :=
  48 ≤ c.toNat && c.toNat ≤ 57

/-- Hexadecimal digit classifier (`0-9a-fA-F`), as accepted by `strtol`
with base 16. -/
def ishexB (c : Char) : Bool :=
  isdigitB c || (97 ≤ c.toNat && c.toNat ≤ 102) || (65 ≤ c.toNat && c.toNat ≤ 70)

/-- Numeric value of a single hexadecimal digit. -/
def hexDigitVal (c : Char) : Nat :=
  if isdigitB c then c.toNat - 48
  else if 97 ≤ c.toNat && c.toNat ≤ 102 then c.toNat - 87
  else c.toNat - 55

/-- The JSON value model: `std::variant<std::nullptr_t, bool, double,
std::string, JsonArray, JsonObject>` (Json.h lines 13-19).  `JsonObject`
is `std::map<std::string, Json>`, kept as a key-sorted association list. -/
inductive Json where
  | null : Json
  | bool (b : Bool) : Json
  | number (q : Rat) : Json
  | str (s : List Char) : Json
  | arr (elems : List Json) : Json
  | obj (members : List (List Char × Json)) : Json

namespace Json

/-- `std::string` comparison `operator<`: lexicographic on unsigned byte
values (`char_traits<char>::compare`), a proper prefix is smaller. -/
def keyLt : List Char → List Char → Bool
  | [], [] => false
  | [], _ :: _ => true
  | _ :: _, [] => false
  | a :: as, b :: bs =>
    if a.toNat < b.toNat then true
    else if b.toNat < a.toNat then false
    else keyLt as bs

/-- `std::map::find` on the sorted association list (association lookup by
string equality). -/
def mapFind : List (List Char × Json) → List Char → Option Json
  | [], _ => none
  | (k, v) :: t, key => if key = k then some v else mapFind t key

/-- `std::map` assignment `m[key] = v`: insert at the sorted place, or
overwrite the payload if the key is already present. -/
def mapInsert : List (List Char × Json) → List Char → Json → List (List Char × Json)
  | [], key, v => [(key, v)]
  | (k, w) :: t, key, v =>
    if keyLt key k then (key, v) :: (k, w) :: t
    else if keyLt k key then (k, w) :: mapInsert t key v
    else (k, v) :: t

/-- `Json::is_null` (Json.h line 36). -/
def is_null : Json → Bool
  | .null => true
  | _ => false

/-- `Json::is_bool` (Json.h line 37). -/
def is_bool : Json → Bool
  | .bool _ => true
  | _ => false

/-- `Json::is_number` (Json.h line 38). -/
def is_number : Json → Bool
  | .number _ => true
  | _ => false

/-- `Json::is_string` (Json.h line 39). -/
def is_string : Json → Bool
  | .str _ => true
  | _ => false

/-- `Json::is_array` (Json.h line 40). -/
def is_array : Json → Bool
  | .arr _ => true
  | _ => false

/-- `Json::is_object` (Json.h line 41). -/
def is_object : Json → Bool
  | .obj _ => true
  | _ => false

/-- Outcome of a `Json` accessor call: either a typed failure
(`std::runtime_error` with the given message), or the undefined behaviour
of an unchecked container access (which the C++ abstract machine does not
define; the embedding marks it). -/
inductive AccessErr where
  | runtimeError (msg : String) : AccessErr
  | undefinedBehavior : AccessErr
  deriving DecidableEq

/-- `Json::as_bool` (Json.cpp lines 8-13). -/
def as_bool : Json → Except AccessErr Bool
  | .bool b => .ok b
  | _ => .error (.runtimeError "JSON value is not a boolean")

/-- `Json::as_number` (Json.cpp lines 15-20). -/
def as_number : Json → Except AccessErr Rat
  | .number q => .ok q
  | _ => .error (.runtimeError "JSON value is not a number")

/-- `Json::as_string` (Json.cpp lines 22-27). -/
def as_string : Json → Except AccessErr (List Char)
  | .str s => .ok s
  | _ => .error (.runtimeError "JSON value is not a string")

/-- `Json::as_array` (Json.cpp lines 29-34). -/
def as_array : Json → Except AccessErr (List Json)
  | .arr es => .ok es
  | _ => .error (.runtimeError "JSON value is not an array")

/-- `Json::as_object` (Json.cpp lines 36-41). -/
def as_object : Json → Except AccessErr (List (List Char × Json))
  | .obj l => .ok l
  | _ => .error (.runtimeError "JSON value is not an object")

/-- `Json::operator[](size_t)` (Json.cpp lines 59-67): `as_array()[index]`.
`std::vector::operator[]` performs no bounds check, so an out-of-range
index is undefined behaviour, marked `.undefinedBehavior` here. -/
def atIdx (j : Json) (i : Nat) : Except AccessErr Json :=
  match j.as_array with
  | .error e => .error e
  | .ok es => if h : i < es.length then .ok (es.get ⟨i, h⟩) else .error .undefinedBehavior

/-- Mutable `Json::operator[](const std::string&)` (Json.cpp lines 69-72):
`as_object()[key]`.  `std::map::operator[]` value-initialises a `Json()`
(i.e. `null`) entry when the key is absent and returns a reference to the
entry.  The embedding returns the referenced payload together with the
(possibly updated) whole value. -/
def atKeyMut (j : Json) (key : List Char) : Except AccessErr (Json × Json) :=
  match j with
  | .obj l =>
    match mapFind l key with
    | some v => .ok (v, .obj l)
    | none => .ok (.null, .obj (mapInsert l key .null))
  | _ => .error (.runtimeError "JSON value is not an object")

/-- Const `Json::operator[](const std::string&)` (Json.cpp lines 74-81):
`find` then `throw std::runtime_error("Key not found: " + key)` when the
key is absent.  A pure read: the value tree is not modified. -/
def atKeyConst (j : Json) (key : List Char) : Except AccessErr Json :=
  match j with
  | .obj l =>
    match mapFind l key with
    | some v => .ok v
    | none => .error (.runtimeError ("Key not found: " ++ String.mk key))
  | _ => .error (.runtimeError "JSON value is not an object")

/-- Little-endian decimal digits of a natural number (empty for 0). -/
def natDigitsLE (n : Nat) : List Nat :=
  if n = 0 then [] else n % 10 :: natDigitsLE (n / 10)
decreasing_by exact Nat.div_lt_self (Nat.pos_of_ne_zero (by assumption)) (by omega)

/-- Decimal digit to its character. -/
def digitChar (d : Nat) : Char := Char.ofNat (48 + d)

/-- Decimal representation of a natural number, as emitted by
`operator<<(std::ostream&, long long)` for non-negative values. -/
def natChars (n : Nat) : List Char :=
  if n = 0 then ['0'] else ((natDigitsLE n).reverse).map digitChar

/-- Decimal representation of a signed integer, as emitted by
`operator<<(std::ostream&, long long)`. -/
def intChars (i : Int) : List Char :=
  if i < 0 then '-' :: natChars i.natAbs else natChars i.natAbs

/-- `static_cast<long long>(num)`: truncation toward zero (`Int.div` is
T-division).  For `|num| = 2^63` the C++ cast is undefined behaviour; the
embedding uses the mathematical truncation. -/
def ratTruncLL (q : Rat) : Int := Int.tdiv q.num (Int.ofNat q.den)

/-- Lower-case hexadecimal digit character, as produced by `std::hex`. -/
def hexChar (d : Nat) : Char :=
  if d < 10 then digitChar d else Char.ofNat (87 + d)

/-- Floor of a rational as an integer (`Int.fdiv` is floor division). -/
def ratFloorI (q : Rat) : Int := Int.fdiv q.num (Int.ofNat q.den)

/-- Search for the least `k` (starting at `k`, within `fuel` steps) with
`1 ≤ n * 10 ^ k`; helper for the decimal exponent of a rational below 1. -/
def negExpoSearch (n : Rat) : Nat → Nat → Nat
  | k, 0 => k
  | k, fuel + 1 => if 1 ≤ n * (10 : Rat) ^ k then k else negExpoSearch n (k + 1) fuel

/-- Decimal exponent `d` of a positive rational: `10^d ≤ n < 10^(d+1)`. -/
def decExpo (n : Rat) : Int :=
  if 1 ≤ n then ((natDigitsLE (ratFloorI n).toNat).length : Int) - 1
  else -(negExpoSearch n 1 ((natDigitsLE n.den).length + 2) : Int)

/-- Round a rational to an integer, ties to even (the rounding used when a
binary double is converted to a shortest fitting decimal by `printf`). -/
def roundHalfEven (r : Rat) : Int :=
  let m0 := ratFloorI r
  let frac := r - (m0 : Rat)
  if frac > (1 : Rat) / 2 then m0 + 1
  else if frac < (1 : Rat) / 2 then m0
  else if m0 % 2 = 0 then m0 else m0 + 1

/-- Strip trailing `'0'` characters. -/
def stripZeros (l : List Char) : List Char :=
  ((l.reverse).dropWhile (fun c => c = '0')).reverse

/-- Modelled from the platform behaviour of `operator<<(std::ostream&,
double)` with default flags (`%g`, precision 6) applied to the exact
rational value: round to 6 significant digits, use fixed notation when the
decimal exponent is in `[-4, 5]` and scientific notation otherwise, and
strip trailing zeros.  Only invoked by `numChars` on non-integral values
(Json.cpp line 108). -/
def gFormat (q : Rat) : List Char :=
  if q = 0 then ['0']
  else
    (if q < 0 then ['-'] else []) ++
    (let n : Rat := |q|
     let d : Int := decExpo n
     let scaled : Rat := if d ≤ 5 then n * (10 : Rat) ^ (5 - d).toNat else n / (10 : Rat) ^ (d - 5).toNat
     let m : Int := roundHalfEven scaled
     let dm : Int × Int := if m = 10 ^ 6 then (d + 1, 10 ^ 5) else (d, m)
     let ds : List Char := natChars dm.2.toNat
     if -4 ≤ dm.1 ∧ dm.1 < 6 then
       if 0 ≤ dm.1 then
         let ipart := ds.take (dm.1.toNat + 1)
         let fpart := stripZeros (ds.drop (dm.1.toNat + 1))
         ipart ++ (if fpart.isEmpty then [] else '.' :: fpart)
       else
         let fpart := stripZeros (List.replicate ((-dm.1).toNat - 1) '0' ++ ds)
         '0' :: '.' :: fpart
     else
       let rest := stripZeros (ds.drop 1)
       let eN : Nat := dm.1.natAbs
       let eds := natChars eN
       ds.take 1 ++ (if rest.isEmpty then [] else '.' :: rest) ++
         'e' :: (if dm.1 < 0 then '-' else '+') ::
         (if eds.length < 2 then '0' :: eds else eds))

/-- Number serialization (Json.cpp lines 101-109): print as a bare integer
when the stored value equals its truncation to `long long`, otherwise with
the stream's default floating formatting. -/
def numChars (q : Rat) : List Char :=
  if q = ((ratTruncLL q : Int) : Rat) then intChars (ratTruncLL q) else gFormat q

/-- String-character escaping in `Json::stringify` (Json.cpp lines
113-131): two-character escapes for `" \ \b \f \n \r \t`, `\u00XX` (4 hex
digits, zero padded, lower case) for other control bytes below 0x20, all
other bytes verbatim. -/
def escChar (c : Char) : List Char :=
  if c = '"' then ['\\', '"']
  else if c = '\\' then ['\\', '\\']
  else if c = '\x08' then ['\\', 'b']
  else if c = '\x0c' then ['\\', 'f']
  else if c = '\n' then ['\\', 'n']
  else if c = '\r' then ['\\', 'r']
  else if c = '\t' then ['\\', 't']
  else if c.toNat < 32 then ['\\', 'u', '0', '0', hexChar (c.toNat / 16), hexChar (c.toNat % 16)]
  else [c]

/-- `make_indent` (Json.cpp lines 88-93): `indent * 2` spaces when pretty. -/
def mkIndent (pretty : Bool) (indent : Nat) : List Char :=
  if pretty then List.replicate (indent * 2) ' ' else []

mutual

/-- `Json::stringify(bool pretty, int indent)` (Json.cpp lines 85-171).
Output is a byte list; object keys are emitted raw, without escaping
(line 159). -/
def stringify (j : Json) (pretty : Bool) (indent : Nat) : List Char :=
  match j with
  | .null => "null".toList
  | .bool b => if b then "true".toList else "false".toList
  | .number q => numChars q
  | .str s => ('"' :: (s.map escChar).flatten) ++ ['"']
  | .arr es =>
    ('[' :: (if pretty && !es.isEmpty then ['\n'] else [])) ++
    serElems es pretty indent ++
    (if pretty && !es.isEmpty then mkIndent pretty indent else []) ++ [']']
  | .obj l =>
    ('\x7b' :: (if pretty && !l.isEmpty then ['\n'] else [])) ++
    serMembers l pretty indent ++
    (if pretty && !l.isEmpty then mkIndent pretty indent else []) ++ ['\x7d']

/-- The element loop of `Json::stringify` for arrays (Json.cpp lines
139-145): per element indent, two extra spaces when pretty, recursive
serialization at `indent + 1`, comma between elements, newline when
pretty. -/
def serElems (es : List Json) (pretty : Bool) (indent : Nat) : List Char :=
  match es with
  | [] => []
  | e :: rest =>
    mkIndent pretty indent ++ (if pretty then [' ', ' '] else []) ++
    stringify e pretty (indent + 1) ++
    (if rest.isEmpty then [] else [',']) ++
    (if pretty then ['\n'] else []) ++
    serElems rest pretty indent

/-- The member loop of `Json::stringify` for objects (Json.cpp lines
155-164): emits `"key": value`; the key is written verbatim with no
escaping. -/
def serMembers (l : List (List Char × Json)) (pretty : Bool) (indent : Nat) : List Char :=
  match l with
  | [] => []
  | (k, v) :: rest =>
    mkIndent pretty indent ++ (if pretty then [' ', ' '] else []) ++
    ('"' :: k) ++ ('"' :: ':' :: ' ' :: stringify v pretty (indent + 1)) ++
    (if rest.isEmpty then [] else [',']) ++
    (if pretty then ['\n'] else []) ++
    serMembers rest pretty indent

end

/-- `JsonParseError` (Json.h lines 68-79): a message plus the zero-based
byte offset at which the parse failed. -/
structure ParseErr where
  message : String
  position : Nat
  deriving DecidableEq

/-- Parser result: the parsed value, the remaining input suffix and the new
absolute position `pos_`, or a positioned error. -/
abbrev PRes (α : Type) := Except ParseErr (α × List Char × Nat)

/-- `JsonParser::skip_whitespace` (Json.cpp lines 215-220): drop leading
bytes for which `std::isspace` holds, tracking `pos_`. -/
def skip_whitespace : List Char → Nat → List Char × Nat
  | [], pos => ([], pos)
  | c :: t, pos => if isspaceB c then skip_whitespace t (pos + 1) else (c :: t, pos)

/-- `JsonParser::peek` (Json.cpp lines 202-207): the current byte, or the
`'\0'` sentinel at end of input. -/
def peekc : List Char → Char
  | [] => '\x00'
  | c :: _ => c

/-- A maximal leading run of decimal digits, and the rest (the shape of the
`while (isdigit(peek())) advance();` loops in `parse_number`). -/
def takeDigits : List Char → List Char × List Char
  | [] => ([], [])
  | c :: t =>
    if isdigitB c then
      let p := takeDigits t
      (c :: p.1, p.2)
    else ([], c :: t)

/-- `JsonParser::parse_null` (Json.cpp lines 237-244): exact literal match
of `null` via `substr(pos_, 4)`. -/
def parse_null (rem : List Char) (pos : Nat) : PRes Json :=
  if rem.take 4 = "null".toList then .ok (.null, rem.drop 4, pos + 4)
  else .error ⟨"Invalid null value", pos⟩

/-- `JsonParser::parse_bool` (Json.cpp lines 246-257): exact literal match
of `true` then `false`. -/
def parse_bool (rem : List Char) (pos : Nat) : PRes Json :=
  if rem.take 4 = "true".toList then .ok (.bool true, rem.drop 4, pos + 4)
  else if rem.take 5 = "false".toList then .ok (.bool false, rem.drop 5, pos + 5)
  else .error ⟨"Invalid boolean value", pos⟩

/-- Integer-part scan of `parse_number` (Json.cpp lines 265-275): a single
`'0'`, or a maximal nonempty digit run; `none` models the
`throw JsonParseError("Invalid number", pos_)` branch. -/
def scanIntPart (rem : List Char) : Option (List Char × List Char) :=
  if peekc rem = '0' then some (['0'], rem.tail)
  else if isdigitB (peekc rem) then some (takeDigits rem)
  else none

/-- Fraction scan of `parse_number` (Json.cpp lines 277-285): optional
`'.'` followed by a mandatory digit run; `.error ()` models the
`"Invalid number: expected digit after decimal point"` throw. -/
def scanFrac (rem : List Char) : Except Unit (List Char × List Char) :=
  if peekc rem = '.' then
    let p := takeDigits rem.tail
    if p.1.isEmpty then .error () else .ok ('.' :: p.1, p.2)
  else .ok ([], rem)

/-- Exponent scan of `parse_number` (Json.cpp lines 287-296): optional
`e`/`E`, optional sign, mandatory digit run.  The error payload is the
offset of the missing digit relative to the exponent marker (1 without a
sign, 2 with one), matching the position of the
`"Invalid number: expected digit in exponent"` throw. -/
def scanExp (rem : List Char) : Except Nat (List Char × List Char) :=
  if peekc rem = 'e' ∨ peekc rem = 'E' then
    let sg : List Char :=
      if peekc rem.tail = '+' then ['+']
      else if peekc rem.tail = '-' then ['-']
      else []
    let p := takeDigits (rem.tail.drop sg.length)
    if p.1.isEmpty then .error (1 + sg.length)
    else .ok (peekc rem :: sg ++ p.1, p.2)
  else .ok ([], rem)

/-- Digit characters to the natural number they denote (base 10). -/
def natOfDigits (ds : List Char) : Nat :=
  ds.foldl (fun a c => 10 * a + (c.toNat - 48)) 0

/-- Modelled `std::stod` (Json.cpp line 300) as exact decimal-to-rational
conversion of the captured token `sign? digits ('.' digits)?
(e/E sign? digits)?`.  Rounding to binary double and the out-of-range
failure path (`"Invalid number format"`, unreachable for in-range tokens)
are float-precision behaviours outside this model. -/
def stodModel (tok : List Char) : Rat :=
  let p1 : Bool × List Char :=
    if peekc tok = '-' then (true, tok.tail)
    else if peekc tok = '+' then (false, tok.tail)
    else (false, tok)
  let p2 := takeDigits p1.2
  let p3 : List Char × List Char :=
    if peekc p2.2 = '.' then takeDigits p2.2.tail else ([], p2.2)
  let p4 : Bool × List Char :=
    if peekc p3.2 = 'e' ∨ peekc p3.2 = 'E' then
      (if peekc p3.2.tail = '+' then (false, (takeDigits p3.2.tail.tail).1)
       else if peekc p3.2.tail = '-' then (true, (takeDigits p3.2.tail.tail).1)
       else (false, (takeDigits p3.2.tail).1))
    else (false, [])
  let mant : Rat :=
    (natOfDigits p2.1 : Rat) +
      (if p3.1.isEmpty then 0 else (natOfDigits p3.1 : Rat) / ((10 : Rat) ^ p3.1.length))
  let mag : Rat := (10 : Rat) ^ natOfDigits p4.2
  let v : Rat := if p4.1 then mant / mag else mant * mag
  if p1.1 then -v else v

/-- `JsonParser::parse_number` (Json.cpp lines 259-305): optional `'-'`,
integer part, optional fraction, optional exponent; the captured substring
is converted by `stodModel`.  Error offsets follow the C++ `pos_` at each
throw site. -/
def parse_number (rem : List Char) (pos : Nat) : PRes Json :=
  let s1 : List Char × List Char :=
    if peekc rem = '-' then (['-'], rem.tail) else ([], rem)
  match scanIntPart s1.2 with
  | none => .error ⟨"Invalid number", pos + s1.1.length⟩
  | some (ip, rem2) =>
    match scanFrac rem2 with
    | .error _ =>
      .error ⟨"Invalid number: expected digit after decimal point",
        pos + s1.1.length + ip.length + 1⟩
    | .ok (fp, rem3) =>
      match scanExp rem3 with
      | .error off =>
        .error ⟨"Invalid number: expected digit in exponent",
          pos + s1.1.length + ip.length + fp.length + off⟩
      | .ok (ep, rem4) =>
        .ok (.number (stodModel (s1.1 ++ ip ++ fp ++ ep)), rem4,
          pos + s1.1.length + ip.length + fp.length + ep.length)

/-- Modelled `std::stoi(hex, nullptr, 16)` (Json.cpp line 336), i.e.
`strtol` with base 16: skip `isspace` bytes, optional sign, optional
`0x`/`0X` prefix when followed by a hex digit, then a maximal hex-digit
run; `none` models the `std::invalid_argument` throw when no digit is
found.  Overflow cannot occur on a four-character input. -/
def stoiHex (l : List Char) : Option Int :=
  let l1 := l.dropWhile isspaceB
  let p1 : Bool × List Char :=
    if peekc l1 = '-' then (true, l1.tail)
    else if peekc l1 = '+' then (false, l1.tail)
    else (false, l1)
  let l3 : List Char :=
    if peekc p1.2 = '0' ∧ (peekc p1.2.tail = 'x' ∨ peekc p1.2.tail = 'X') ∧
        ishexB (peekc p1.2.tail.tail) then
      p1.2.tail.tail
    else p1.2
  let ds := l3.takeWhile ishexB
  if ds.isEmpty then none
  else some ((if p1.1 then -1 else 1) *
    (Int.ofNat (ds.foldl (fun a c => 16 * a + hexDigitVal c) 0)))

/-- One iteration of the `JsonParser::parse_string` accumulation loop
(Json.cpp lines 314-358): either the closing quote is found, or one
character (possibly decoded from an escape sequence) is appended, or the
iteration fails.  Factored out of `parse_string_loop` so that the
recursive shell stays small. -/
inductive PslStep where
  | close (rem : List Char) (npos : Nat)
  | push (c : Char) (rem : List Char) (npos : Nat)
  | fail (e : ParseErr)

/-- The escape `switch` of `JsonParser::parse_string` (Json.cpp lines
321-352), entered with `e` the character after the backslash and `pos`
the offset of the backslash: escapes `\\" \\\\ \\/ \\b \\f \\n \\r \\t`;
`\\uXXXX` reads the next four bytes (`substr(pos_, 4)` after the
`pos_ + 4 > json_.size()` check, lines 332-334) through `stoiHex`, code
points below 128 becoming the cast byte and others the `'?'`
placeholder; any other escape character is an error. -/
def psl_escape (e : Char) (t1 : List Char) (pos : Nat) : PslStep :=
  if e = '"' then .push '"' t1 (pos + 2)
  else if e = '\\' then .push '\\' t1 (pos + 2)
  else if e = '/' then .push '/' t1 (pos + 2)
  else if e = 'b' then .push '\x08' t1 (pos + 2)
  else if e = 'f' then .push '\x0c' t1 (pos + 2)
  else if e = 'n' then .push '\n' t1 (pos + 2)
  else if e = 'r' then .push '\r' t1 (pos + 2)
  else if e = 't' then .push '\t' t1 (pos + 2)
  else if e = 'u' then
    if 4 ≤ t1.length then
      match stoiHex (t1.take 4) with
      | none => .fail ⟨"Invalid unicode escape", pos + 2⟩
      | some cp =>
        .push (if cp < 128 then Char.ofNat ((cp % 256).toNat) else '?')
          (t1.drop 4) (pos + 6)
    else .fail ⟨"Invalid unicode escape", pos + 2⟩
  else .fail ⟨"Invalid escape sequence", pos + 1⟩

def psl_step (rem : List Char) (pos : Nat) : PslStep :=
  match rem with
  | [] => .fail ⟨"Unterminated string", pos⟩
  | c :: t =>
    if c = '"' then .close t (pos + 1)
    else if c = '\\' then
      match t with
      | [] => .fail ⟨"Unterminated string", pos + 1⟩
      | e :: t1 => psl_escape e t1 pos
    else .push c t (pos + 1)

/-- The character-accumulation loop of `JsonParser::parse_string`
(Json.cpp lines 313-365): iterate `psl_step` until the closing quote,
accumulating the payload.  The loop is totalised by a fuel argument;
every iteration consumes at least one input byte, so the fuel
`parse_string` supplies is never exhausted. -/
def parse_string_loop : Nat → List Char → Nat → List Char → PRes (List Char)
  | 0, _, pos, _ => .error ⟨"recursion fuel exhausted", pos⟩
  | fuel + 1, rem, pos, acc =>
    match psl_step rem pos with
    | .close t npos => .ok (acc, t, npos)
    | .push c t npos => parse_string_loop fuel t npos (acc ++ [c])
    | .fail e => .error e

/-- `JsonParser::parse_string` (Json.cpp lines 307-366): requires an
opening quote (`current()` raises end-of-input at the end of the buffer),
then runs the accumulation loop with fuel that cannot run out. -/
def parse_string (rem : List Char) (pos : Nat) : PRes (List Char) :=
  match rem with
  | [] => .error ⟨"Unexpected end of input", pos⟩
  | c :: t =>
    if c = '"' then parse_string_loop (t.length + 1) t (pos + 1) []
    else .error ⟨"Expected \x27\"\x27", pos⟩

mutual

/-- `JsonParser::parse_value` (Json.cpp lines 222-235): skip whitespace,
then dispatch on the current character.  The `fuel` argument totalises the
C++ recursion; `Json.parse` supplies enough for any run on its input. -/
def parse_value : Nat → List Char → Nat → PRes Json
  | 0, _, pos => .error ⟨"recursion fuel exhausted", pos⟩
  | fuel + 1, rem, pos =>
    let s := skip_whitespace rem pos
    match s.1 with
    | [] => .error ⟨"Unexpected end of input", s.2⟩
    | c :: _ =>
      if c = 'n' then parse_null s.1 s.2
      else if c = 't' ∨ c = 'f' then parse_bool s.1 s.2
      else if c = '"' then
        match parse_string s.1 s.2 with
        | .error e => .error e
        | .ok (payload, rem1, pos1) => .ok (.str payload, rem1, pos1)
      else if c = '[' then parse_array fuel s.1 s.2
      else if c = '\x7b' then parse_object fuel s.1 s.2
      else if c = '-' ∨ isdigitB c then parse_number s.1 s.2
      else .error ⟨"Unexpected character", s.2⟩
termination_by structural fuel => fuel

/-- `JsonParser::parse_array` (Json.cpp lines 368-398): `'['`, empty array
on an immediate `']'`, otherwise the element loop. -/
def parse_array : Nat → List Char → Nat → PRes Json
  | 0, _, pos => .error ⟨"recursion fuel exhausted", pos⟩
  | fuel + 1, rem, pos =>
    match rem with
    | [] => .error ⟨"Unexpected end of input", pos⟩
    | c :: t =>
      if c = '[' then
        let s := skip_whitespace t (pos + 1)
        if peekc s.1 = ']' then .ok (.arr [], s.1.tail, s.2 + 1)
        else parse_elems fuel s.1 s.2 []
      else .error ⟨"Expected \x27[\x27", pos⟩
termination_by structural fuel => fuel

/-- The element loop of `parse_array` (Json.cpp lines 382-395): parse a
value, then require `']'` (stop) or `','` (continue). -/
def parse_elems : Nat → List Char → Nat → List Json → PRes Json
  | 0, _, pos, _ => .error ⟨"recursion fuel exhausted", pos⟩
  | fuel + 1, rem, pos, acc =>
    match parse_value fuel rem pos with
    | .error e => .error e
    | .ok (v, rem1, pos1) =>
      let s := skip_whitespace rem1 pos1
      if peekc s.1 = ']' then .ok (.arr (acc ++ [v]), s.1.tail, s.2 + 1)
      else if peekc s.1 = ',' then
        let s2 := skip_whitespace s.1.tail (s.2 + 1)
        parse_elems fuel s2.1 s2.2 (acc ++ [v])
      else .error ⟨"Expected \x27,\x27 or \x27]\x27 in array", s.2⟩
termination_by structural fuel => fuel

/-- `JsonParser::parse_object` (Json.cpp lines 400-442): `'{'`, empty
object on an immediate `'}'`, otherwise the member loop. -/
def parse_object : Nat → List Char → Nat → PRes Json
  | 0, _, pos => .error ⟨"recursion fuel exhausted", pos⟩
  | fuel + 1, rem, pos =>
    match rem with
    | [] => .error ⟨"Unexpected end of input", pos⟩
    | c :: t =>
      if c = '\x7b' then
        let s := skip_whitespace t (pos + 1)
        if peekc s.1 = '\x7d' then .ok (.obj [], s.1.tail, s.2 + 1)
        else parse_members fuel s.1 s.2 []
      else .error ⟨"Expected \x27\x7b\x27", pos⟩
termination_by structural fuel => fuel

/-- The member loop of `parse_object` (Json.cpp lines 414-439): a
string-led key, `':'`, a value stored by `obj[key] = ...` (map
insert-or-overwrite), then `'}'` (stop) or `','` (continue). -/
def parse_members : Nat → List Char → Nat → List (List Char × Json) → PRes Json
  | 0, _, pos, _ => .error ⟨"recursion fuel exhausted", pos⟩
  | fuel + 1, rem, pos, acc =>
    let s := skip_whitespace rem pos
    if peekc s.1 = '"' then
      match parse_string s.1 s.2 with
      | .error e => .error e
      | .ok (key, rem2, pos2) =>
        let s3 := skip_whitespace rem2 pos2
        if peekc s3.1 = ':' then
          let s4 := skip_whitespace s3.1.tail (s3.2 + 1)
          match parse_value fuel s4.1 s4.2 with
          | .error e => .error e
          | .ok (v, rem5, pos5) =>
            let acc1 := mapInsert acc key v
            let s6 := skip_whitespace rem5 pos5
            if peekc s6.1 = '\x7d' then .ok (.obj acc1, s6.1.tail, s6.2 + 1)
            else if peekc s6.1 = ',' then parse_members fuel s6.1.tail (s6.2 + 1) acc1
            else .error ⟨"Expected \x27,\x27 or \x27\x7d\x27 in object", s6.2⟩
        else .error ⟨"Expected \x27:\x27 after key in object", s3.2⟩
    else .error ⟨"Expected string key in object", s.2⟩
termination_by structural fuel => fuel

end

/-- `JsonParser::parse` / `Json::parse` (Json.cpp lines 180-189, 445-449):
skip whitespace, parse one value, skip whitespace, and reject any trailing
content.  The fuel `3 * s.length + 3` suffices for every terminating C++
run on input `s` (each three units of fuel consumed on a
value/array/object/loop chain consume at least one input byte). -/
def parse (s : List Char) : Except ParseErr Json :=
  let p := skip_whitespace s 0
  match parse_value (3 * s.length + 3) p.1 p.2 with
  | .error e => .error e
  | .ok (v, rem2, pos2) =>
    match skip_whitespace rem2 pos2 with
    | ([], _) => .ok v
    | (_ :: _, pos3) => .error ⟨"Unexpected characters after JSON value", pos3⟩

/-- Exponent tail of the JSON number grammar, modelled from the spec:
optional `e`/`E` with optional sign followed by one or more digits, ending
the token. -/
def expG (s : List Char) : Bool :=
  if s = [] then true
  else if peekc s = 'e' ∨ peekc s = 'E' then
    let t1 : List Char :=
      if peekc s.tail = '+' ∨ peekc s.tail = '-' then s.tail.tail else s.tail
    isdigitB (peekc t1) && (t1.dropWhile isdigitB).isEmpty
  else false

/-- Fraction-then-exponent tail of the JSON number grammar, modelled from
the spec: optional `.` followed by one or more digits, then `expG`. -/
def fracExpG (s : List Char) : Bool :=
  if peekc s = '.' then
    isdigitB (peekc s.tail) && expG (s.tail.dropWhile isdigitB)
  else expG s

/-- The JSON number grammar, modelled from the spec: optional leading `-`;
integer part a single `0` or a nonzero digit followed by more digits;
optional fraction; optional exponent. -/
def numGrammar (s : List Char) : Bool :=
  let t0 : List Char := if peekc s = '-' then s.tail else s
  if t0 = [] then false
  else if peekc t0 = '0' then fracExpG t0.tail
  else isdigitB (peekc t0) && fracExpG (t0.tail.dropWhile isdigitB)

/-- Shape of an optional leading minus sign. -/
def SignOk (sg : List Char) : Prop := sg = [] ∨ sg = ['-']

/-- Shape of the integer part accepted by `scanIntPart`: a single `0`, or
a nonzero digit followed by more digits. -/
def IntPartOk (ip : List Char) : Prop :=
  ip = ['0'] ∨
    (∃ c t, ip = c :: t ∧ isdigitB c = true ∧ c ≠ '0' ∧ ∀ d ∈ t, isdigitB d = true)

/-- Shape of the (possibly absent) fraction part accepted by `scanFrac`. -/
def FracOk (fp : List Char) : Prop :=
  fp = [] ∨ (∃ ds, fp = '.' :: ds ∧ ds ≠ [] ∧ ∀ d ∈ ds, isdigitB d = true)

/-- Shape of the (possibly absent) exponent part accepted by `scanExp`. -/
def ExpOk (ep : List Char) : Prop :=
  ep = [] ∨
    (∃ e sg ds, ep = e :: (sg ++ ds) ∧ (e = 'e' ∨ e = 'E') ∧
      (sg = [] ∨ sg = ['+'] ∨ sg = ['-']) ∧ ds ≠ [] ∧ ∀ d ∈ ds, isdigitB d = true)

/-- What may legally follow a complete number token so that the scanners
stop exactly at its end. -/
def NumRestOk (fp ep rest : List Char) : Prop :=
  isdigitB (peekc rest) = false ∧
    (ep = [] → peekc rest ≠ 'e' ∧ peekc rest ≠ 'E') ∧
    (fp = [] → ep = [] → peekc rest ≠ '.')

/-- What may follow a serialized value inside a serialized document: end of
input, a separator comma, or a closing bracket or brace. -/
def RestOkTok (rest : List Char) : Prop :=
  peekc rest = '\x00' ∨ peekc rest = ',' ∨ peekc rest = ']' ∨ peekc rest = '\x7d'

/-- Strict `keyLt`-sortedness of an object member list, the invariant of
`std::map` iteration order. -/
def SortedKeys (l : List (List Char × Json)) : Prop :=
  List.Pairwise (fun p q => keyLt p.1 q.1 = true) l

/-- Structural invariant every value built through `std::map` enjoys: all
object member lists are strictly sorted by `keyLt`, recursively. -/
inductive ObjSorted : Json → Prop where
  | null : ObjSorted .null
  | bool (b : Bool) : ObjSorted (.bool b)
  | number (q : Rat) : ObjSorted (.number q)
  | str (s : List Char) : ObjSorted (.str s)
  | arr (es : List Json) : (∀ e ∈ es, ObjSorted e) → ObjSorted (.arr es)
  | obj (l : List (List Char × Json)) :
      SortedKeys l →
      (∀ p ∈ l, ObjSorted p.2) → ObjSorted (.obj l)

/-- Round-trippable values: object member lists sorted (as `std::map`
guarantees), numbers integral and within the double-exact range (the
claim's "no float-precision edge cases"), and object keys free of `"` and
`\` (which `stringify` emits unescaped). -/
inductive RTok : Json → Prop where
  | null : RTok .null
  | bool (b : Bool) : RTok (.bool b)
  | number (q : Rat) : q.den = 1 → q.num.natAbs < 2 ^ 53 → RTok (.number q)
  | str (s : List Char) : RTok (.str s)
  | arr (es : List Json) : (∀ e ∈ es, RTok e) → RTok (.arr es)
  | obj (l : List (List Char × Json)) :
      SortedKeys l →
      (∀ p ∈ l, ∀ c ∈ p.1, c ≠ '"' ∧ c ≠ '\\') →
      (∀ p ∈ l, RTok p.2) → RTok (.obj l)

mutual

/-- An upper bound on the parser fuel consumed when re-reading a value of
the given shape: one unit per `parse_value` entry, plus one per
array/object opener and one per element/member loop iteration. -/
def fuelB : Json → Nat
  | .null => 1
  | .bool _ => 1
  | .number _ => 1
  | .str _ => 1
  | .arr es => 2 + fuelE es
  | .obj l => 2 + fuelM l

/-- Fuel bound for the `parse_elems` loop over serialized elements. -/
def fuelE : List Json → Nat
  | [] => 0
  | e :: rest => 1 + fuelB e + fuelE rest

/-- Fuel bound for the `parse_members` loop over serialized members. -/
def fuelM : List (List Char × Json) → Nat
  | [] => 0
  | (_, v) :: rest => 1 + fuelB v + fuelM rest

end

end Json

end JsonCpp

namespace JsonCpp

open Json

/-! ### Basic facts about the scanning helpers -/

theorem skip_whitespace_not_space {c : Char} (t : List Char) (pos : Nat)
    (h : isspaceB c = false) : skip_whitespace (c :: t) pos = (c :: t, pos) := by
  simp [skip_whitespace, h]

theorem skip_whitespace_space {c : Char} (t : List Char) (pos : Nat)
    (h : isspaceB c = true) : skip_whitespace (c :: t) pos = skip_whitespace t (pos + 1) := by
  simp [skip_whitespace, h]

theorem skip_whitespace_noWs {s : List Char} (pos : Nat)
    (h : ∀ c ∈ s, isspaceB c = false) : skip_whitespace s pos = (s, pos) := by
  cases s with
  | nil => rfl
  | cons c t => exact skip_whitespace_not_space t pos (h c (by simp))

theorem skip_whitespace_mem (s : List Char) (pos : Nat) :
    ∀ c ∈ (skip_whitespace s pos).1, c ∈ s := by
  induction s generalizing pos with
  | nil => simp [skip_whitespace]
  | cons c t ih =>
    by_cases hc : isspaceB c = true
    · rw [skip_whitespace_space t pos hc]
      intro x hx
      exact List.mem_cons_of_mem c (ih (pos + 1) x hx)
    · rw [skip_whitespace_not_space t pos (by simpa using hc)]
      intro x hx
      exact hx

theorem takeDigits_digit {c : Char} (t : List Char) (h : isdigitB c = true) :
    takeDigits (c :: t) = (c :: (takeDigits t).1, (takeDigits t).2) := by
  simp [takeDigits, h]

theorem takeDigits_not_digit {c : Char} (t : List Char) (h : isdigitB c = false) :
    takeDigits (c :: t) = ([], c :: t) := by
  simp [takeDigits, h]

theorem takeDigits_all {ds : List Char} (r : List Char)
    (h1 : ∀ c ∈ ds, isdigitB c = true) (h2 : isdigitB (peekc r) = false) :
    takeDigits (ds ++ r) = (ds, r) := by
  induction ds with
  | nil =>
    cases r with
    | nil => rfl
    | cons c t => simpa [takeDigits] using takeDigits_not_digit t (by simpa [peekc] using h2)
  | cons c t ih =>
    have hc : isdigitB c = true := h1 c (by simp)
    rw [List.cons_append, takeDigits_digit _ hc, ih (fun d hd => h1 d (by simp [hd]))]

theorem takeDigits_eq {s ds r : List Char} (h : takeDigits s = (ds, r)) :
    s = ds ++ r ∧ (∀ c ∈ ds, isdigitB c = true) ∧ isdigitB (peekc r) = false := by
  induction s generalizing ds with
  | nil =>
    have h1 : ds = [] := congrArg Prod.fst h.symm
    have h2 : r = [] := congrArg Prod.snd h.symm
    subst h1
    subst h2
    exact ⟨rfl, by simp, by decide⟩
  | cons c t ih =>
    by_cases hc : isdigitB c = true
    · rw [takeDigits_digit t hc] at h
      injection h with h1 h2
      obtain ⟨ha, hb, hc2⟩ := ih (Prod.ext rfl h2 : takeDigits t = ((takeDigits t).1, r))
      subst h1
      refine ⟨by simp [← ha], ?_, hc2⟩
      intro d hd
      rcases List.mem_cons.mp hd with h | h
      · exact h ▸ hc
      · exact hb d h
    · rw [takeDigits_not_digit t (by simpa using hc)] at h
      injection h with h1 h2
      subst h1
      subst h2
      exact ⟨rfl, by simp, by simpa [peekc] using hc⟩

/-! ### Decimal digits and their string round-trip -/

/-- Value of a little-endian digit list. -/
def valLE : List Nat → Nat
  | [] => 0
  | d :: t => d + 10 * valLE t

theorem natDigitsLE_zero : natDigitsLE 0 = [] := by
  rw [natDigitsLE]
  simp

theorem natDigitsLE_pos {n : Nat} (h : n ≠ 0) :
    natDigitsLE n = n % 10 :: natDigitsLE (n / 10) := by
  rw [natDigitsLE]
  simp [h]

theorem valLE_natDigitsLE (n : Nat) : valLE (natDigitsLE n) = n := by
  induction n using Nat.strong_induction_on with
  | _ n ih =>
    by_cases h : n = 0
    · subst h
      simp [natDigitsLE_zero, valLE]
    · rw [natDigitsLE_pos h, valLE,
        ih (n / 10) (Nat.div_lt_self (Nat.pos_of_ne_zero h) (by omega))]
      omega

theorem natDigitsLE_lt_ten (n : Nat) : ∀ d ∈ natDigitsLE n, d < 10 := by
  induction n using Nat.strong_induction_on with
  | _ n ih =>
    by_cases h : n = 0
    · subst h
      simp [natDigitsLE_zero]
    · rw [natDigitsLE_pos h]
      intro d hd
      rcases List.mem_cons.mp hd with h1 | h1
      · omega
      · exact ih (n / 10) (Nat.div_lt_self (Nat.pos_of_ne_zero h) (by omega)) d h1

theorem natDigitsLE_ne_nil {n : Nat} (h : n ≠ 0) : natDigitsLE n ≠ [] := by
  rw [natDigitsLE_pos h]
  simp

theorem natDigitsLE_reverse_head {n : Nat} (h : n ≠ 0) :
    ∃ d rest, (natDigitsLE n).reverse = d :: rest ∧ d ≠ 0 ∧ d < 10 := by
  induction n using Nat.strong_induction_on with
  | _ n ih =>
    by_cases h10 : n / 10 = 0
    · refine ⟨n % 10, [], ?_, ?_, ?_⟩
      · rw [natDigitsLE_pos h, h10, natDigitsLE_zero]
        rfl
      · omega
      · omega
    · obtain ⟨d, rest, hrev, hd, hd10⟩ :=
        ih (n / 10) (Nat.div_lt_self (Nat.pos_of_ne_zero h) (by omega)) h10
      refine ⟨d, rest ++ [n % 10], ?_, hd, hd10⟩
      rw [natDigitsLE_pos h, List.reverse_cons, hrev]
      rfl

/-! ### Characters of decimal digits -/

theorem charEq_of_toNat {c d : Char} (h : c.toNat = d.toNat) : c = d := by
  apply Char.ext
  apply UInt32.ext
  exact h

theorem toNat_ofNat_small (n : Nat) (h : n < 55296) : (Char.ofNat n).toNat = n := by
  unfold Char.ofNat
  rw [dif_pos (Or.inl h)]
  rfl

theorem digitChar_toNat {d : Nat} (h : d < 10) : (digitChar d).toNat = 48 + d :=
  toNat_ofNat_small (48 + d) (by omega)

theorem isdigitB_digitChar {d : Nat} (h : d < 10) : isdigitB (digitChar d) = true := by
  simp [isdigitB, digitChar_toNat h]
  omega

/-- Value of a big-endian digit list. -/
def beVal : List Nat → Nat := List.foldl (fun a d => 10 * a + d) 0

theorem beVal_reverse (l : List Nat) : beVal l.reverse = valLE l := by
  induction l with
  | nil => rfl
  | cons d t ih =>
    rw [List.reverse_cons, beVal, List.foldl_concat]
    show 10 * beVal t.reverse + d = valLE (d :: t)
    rw [ih, valLE]
    omega

theorem foldl_digit_congr (l : List Nat) (h : ∀ d ∈ l, d < 10) (a : Nat) :
    List.foldl (fun x c => 10 * x + (c.toNat - 48)) a (l.map digitChar) =
      List.foldl (fun x d => 10 * x + d) a l := by
  induction l generalizing a with
  | nil => rfl
  | cons d t ih =>
    rw [List.map_cons, List.foldl_cons, List.foldl_cons,
      digitChar_toNat (h d (List.mem_cons_self d t))]
    have he : 10 * a + (48 + d - 48) = 10 * a + d := by omega
    rw [he]
    exact ih (fun e hd => h e (List.mem_cons_of_mem d hd)) _

theorem natOfDigits_map_digitChar (l : List Nat) (h : ∀ d ∈ l, d < 10) :
    natOfDigits (l.map digitChar) = beVal l := by
  rw [natOfDigits, beVal]
  exact foldl_digit_congr l h 0

theorem natOfDigits_natChars (n : Nat) : natOfDigits (natChars n) = n := by
  by_cases h : n = 0
  · subst h
    decide
  · rw [natChars, if_neg h,
      natOfDigits_map_digitChar _ (fun d hd => natDigitsLE_lt_ten n d (List.mem_reverse.mp hd)),
      beVal_reverse, valLE_natDigitsLE]

theorem natChars_digits (n : Nat) : ∀ c ∈ natChars n, isdigitB c = true := by
  by_cases h : n = 0
  · subst h
    intro c hc
    rw [natChars] at hc
    simp at hc
    subst hc
    decide
  · rw [natChars, if_neg h]
    intro c hc
    obtain ⟨d, hd, rfl⟩ := List.mem_map.mp hc
    exact isdigitB_digitChar (natDigitsLE_lt_ten n d (List.mem_reverse.mp hd))

theorem natChars_head (n : Nat) :
    ∃ c t, natChars n = c :: t ∧ isdigitB c = true := by
  by_cases h : n = 0
  · exact ⟨'0', [], by rw [natChars, if_pos h], by decide⟩
  · obtain ⟨d, rest, hrev, _, hd10⟩ := natDigitsLE_reverse_head h
    exact ⟨digitChar d, rest.map digitChar, by rw [natChars, if_neg h, hrev, List.map_cons],
      isdigitB_digitChar hd10⟩

theorem intPartOk_natChars (n : Nat) : IntPartOk (natChars n) := by
  by_cases h : n = 0
  · left
    rw [natChars, if_pos h]
  · right
    obtain ⟨d, rest, hrev, hd0, hd10⟩ := natDigitsLE_reverse_head h
    refine ⟨digitChar d, rest.map digitChar, by rw [natChars, if_neg h, hrev, List.map_cons],
      isdigitB_digitChar hd10, ?_, ?_⟩
    · intro heq
      have := congrArg Char.toNat heq
      rw [digitChar_toNat hd10] at this
      have h48 : ('0').toNat = 48 := by decide
      omega
    · intro c hc
      obtain ⟨e, he, rfl⟩ := List.mem_map.mp hc
      have : e ∈ (natDigitsLE n).reverse := by
        rw [hrev]
        exact List.mem_cons_of_mem d he
      exact isdigitB_digitChar (natDigitsLE_lt_ten n e (List.mem_reverse.mp this))

/-! ### `keyLt` is a strict total order; `mapInsert` facts -/

theorem keyLt_irrefl (k : List Char) : keyLt k k = false := by
  induction k with
  | nil => rfl
  | cons c t ih => simp [keyLt, ih]

theorem keyLt_asymm {a b : List Char} (h : keyLt a b = true) : keyLt b a = false := by
  induction a generalizing b with
  | nil =>
    cases b with
    | nil => simp [keyLt] at h
    | cons c t => rfl
  | cons c t ih =>
    cases b with
    | nil => simp [keyLt] at h
    | cons d u =>
      by_cases hcd : c.toNat < d.toNat
      · simp [keyLt, hcd, Nat.lt_asymm hcd]
      · by_cases hdc : d.toNat < c.toNat
        · simp [keyLt, hcd, hdc] at h
        · simp [keyLt, hcd, hdc] at h ⊢
          exact ih h

theorem keyLt_conn {a b : List Char} (h1 : keyLt a b = false) (h2 : keyLt b a = false) :
    a = b := by
  induction a generalizing b with
  | nil =>
    cases b with
    | nil => rfl
    | cons c t => simp [keyLt] at h1
  | cons c t ih =>
    cases b with
    | nil => simp [keyLt] at h2
    | cons d u =>
      by_cases hcd : c.toNat < d.toNat
      · simp [keyLt, hcd] at h1
      · by_cases hdc : d.toNat < c.toNat
        · simp [keyLt, hdc, Nat.lt_asymm hdc] at h2
        · simp [keyLt, hcd, hdc] at h1 h2
          have hc : c = d := charEq_of_toNat (by omega)
          rw [hc, ih h1 h2]

theorem keyLt_trans {a b c : List Char} (h1 : keyLt a b = true) (h2 : keyLt b c = true) :
    keyLt a c = true := by
  induction a generalizing b c with
  | nil =>
    cases b with
    | nil => simp [keyLt] at h1
    | cons y bs =>
      cases c with
      | nil => simp [keyLt] at h2
      | cons z cs => rfl
  | cons x as ih =>
    cases b with
    | nil => simp [keyLt] at h1
    | cons y bs =>
      cases c with
      | nil => simp [keyLt] at h2
      | cons z cs =>
        by_cases hxy : x.toNat < y.toNat
        · by_cases hyz : y.toNat < z.toNat
          · simp [keyLt, show x.toNat < z.toNat by omega]
          · by_cases hzy : z.toNat < y.toNat
            · simp [keyLt, hyz, hzy] at h2
            · simp [keyLt, show x.toNat < z.toNat by omega]
        · by_cases hyx : y.toNat < x.toNat
          · simp [keyLt, hxy, hyx] at h1
          · simp [keyLt, hxy, hyx] at h1
            by_cases hyz : y.toNat < z.toNat
            · simp [keyLt, show x.toNat < z.toNat by omega]
            · by_cases hzy : z.toNat < y.toNat
              · simp [keyLt, hyz, hzy] at h2
              · simp [keyLt, hyz, hzy] at h2
                simp [keyLt, show ¬x.toNat < z.toNat by omega,
                  show ¬z.toNat < x.toNat by omega]
                exact ih h1 h2

theorem mapInsert_append {l : List (List Char × Json)} {k : List Char} (v : Json)
    (h : ∀ p ∈ l, keyLt p.1 k = true) : mapInsert l k v = l ++ [(k, v)] := by
  induction l with
  | nil => rfl
  | cons p t ih =>
    obtain ⟨k0, w⟩ := p
    have h0 : keyLt k0 k = true := h (k0, w) (List.mem_cons_self _ t)
    rw [mapInsert, if_neg (by simp [keyLt_asymm h0]), if_pos h0,
      ih (fun q hq => h q (List.mem_cons_of_mem _ hq))]
    rfl

theorem mapFind_mapInsert_self (l : List (List Char × Json)) (k : List Char) (v : Json) :
    mapFind (mapInsert l k v) k = some v := by
  induction l with
  | nil => simp [mapInsert, mapFind]
  | cons p t ih =>
    obtain ⟨k0, w⟩ := p
    by_cases h1 : keyLt k k0 = true
    · rw [mapInsert, if_pos h1, mapFind, if_pos rfl]
    · by_cases h2 : keyLt k0 k = true
      · have hne : k ≠ k0 := by
          intro heq
          rw [heq, keyLt_irrefl] at h2
          exact Bool.false_ne_true h2
        rw [mapInsert, if_neg h1, if_pos h2, mapFind, if_neg hne, ih]
      · have heq : k = k0 :=
          keyLt_conn (Bool.eq_false_iff.mpr h1) (Bool.eq_false_iff.mpr h2)
        rw [mapInsert, if_neg h1, if_neg h2, mapFind, if_pos heq]

theorem mapInsert_mem {l : List (List Char × Json)} {k : List Char} {v : Json} :
    ∀ p ∈ mapInsert l k v, p = (k, v) ∨ p ∈ l := by
  induction l with
  | nil => simp [mapInsert]
  | cons q t ih =>
    obtain ⟨k0, w⟩ := q
    by_cases h1 : keyLt k k0 = true
    · rw [mapInsert, if_pos h1]
      intro p hp
      rcases List.mem_cons.mp hp with h | h
      · exact Or.inl h
      · exact Or.inr h
    · by_cases h2 : keyLt k0 k = true
      · rw [mapInsert, if_neg h1, if_pos h2]
        intro p hp
        rcases List.mem_cons.mp hp with h | h
        · exact Or.inr (h ▸ List.mem_cons_self _ t)
        · rcases ih p h with h3 | h3
          · exact Or.inl h3
          · exact Or.inr (List.mem_cons_of_mem _ h3)
      · have heq : k = k0 :=
          keyLt_conn (Bool.eq_false_iff.mpr h1) (Bool.eq_false_iff.mpr h2)
        rw [mapInsert, if_neg h1, if_neg h2]
        intro p hp
        rcases List.mem_cons.mp hp with h | h
        · exact Or.inl (by rw [h, heq])
        · exact Or.inr (List.mem_cons_of_mem _ h)

theorem sortedKeys_iff (l : List (List Char × Json)) :
    SortedKeys l ↔ List.Pairwise (fun p q => keyLt p.1 q.1 = true) l := Iff.rfl

theorem mapInsert_sorted {l : List (List Char × Json)} {k : List Char} {v : Json}
    (h : SortedKeys l) : SortedKeys (mapInsert l k v) := by
  induction l with
  | nil => simp [mapInsert, sortedKeys_iff]
  | cons q t ih =>
    obtain ⟨k0, w⟩ := q
    rw [sortedKeys_iff, List.pairwise_cons] at h
    obtain ⟨h1, h2⟩ := h
    by_cases hk : keyLt k k0 = true
    · rw [mapInsert, if_pos hk, sortedKeys_iff, List.pairwise_cons]
      refine ⟨?_, List.Pairwise.cons h1 h2⟩
      intro p hp
      rcases List.mem_cons.mp hp with h3 | h3
      · rw [h3]
        exact hk
      · exact keyLt_trans hk (h1 p h3)
    · by_cases hk2 : keyLt k0 k = true
      · rw [mapInsert, if_neg hk, if_pos hk2, sortedKeys_iff, List.pairwise_cons]
        refine ⟨?_, ih h2⟩
        intro p hp
        rcases mapInsert_mem p hp with h3 | h3
        · rw [h3]
          exact hk2
        · exact h1 p h3
      · have heq : k = k0 :=
          keyLt_conn (Bool.eq_false_iff.mpr hk) (Bool.eq_false_iff.mpr hk2)
        rw [mapInsert, if_neg hk, if_neg hk2, sortedKeys_iff, List.pairwise_cons]
        exact ⟨fun p hp => h1 p hp, h2⟩

theorem mapInsert_values {l : List (List Char × Json)} {k : List Char} {v : Json}
    {P : Json → Prop} (hl : ∀ p ∈ l, P p.2) (hv : P v) :
    ∀ p ∈ mapInsert l k v, P p.2 := by
  intro p hp
  rcases mapInsert_mem p hp with h | h
  · rw [h]
    exact hv
  · exact hl p h

/-! ### The number scanners on shaped tokens -/

theorem peekc_cons (c : Char) (t : List Char) : peekc (c :: t) = c := rfl

theorem peekc_nil : peekc [] = '\x00' := rfl

theorem isdigitB_ne_minus {c : Char} (h : isdigitB c = true) : c ≠ '-' := by
  intro heq
  subst heq
  simp [isdigitB] at h

theorem isdigitB_ne_plus {c : Char} (h : isdigitB c = true) : c ≠ '+' := by
  intro heq
  subst heq
  simp [isdigitB] at h

theorem takeDigits_all_nil {ds : List Char} (h : ∀ c ∈ ds, isdigitB c = true) :
    takeDigits ds = (ds, []) := by
  have := @takeDigits_all ds [] h (by decide)
  simpa using this

theorem scanIntPart_token {ip : List Char} (r : List Char) (h : IntPartOk ip)
    (hr : isdigitB (peekc r) = false) : scanIntPart (ip ++ r) = some (ip, r) := by
  rcases h with h | ⟨c, t, rfl, hc, hc0, ht⟩
  · subst h
    simp [scanIntPart, peekc]
  · have hpk : peekc ((c :: t) ++ r) = c := by rw [List.cons_append, peekc_cons]
    rw [scanIntPart, hpk, if_neg hc0, if_pos hc, takeDigits_all r (by
      intro d hd
      rcases List.mem_cons.mp hd with h | h
      · exact h ▸ hc
      · exact ht d h) hr]


theorem scanIntPart_eq {s ip r : List Char} (h : scanIntPart s = some (ip, r)) :
    s = ip ++ r ∧ IntPartOk ip := by
  rw [scanIntPart] at h
  by_cases h0 : peekc s = '0'
  · rw [if_pos h0] at h
    injection h with h
    injection h with h1 h2
    cases s with
    | nil => simp [peekc_nil] at h0
    | cons c t =>
      rw [peekc_cons] at h0
      subst h0
      rw [List.tail_cons] at h2
      exact ⟨by rw [← h1, ← h2]; rfl, Or.inl h1.symm⟩
  · rw [if_neg h0] at h
    by_cases hd : isdigitB (peekc s) = true
    · rw [if_pos hd] at h
      injection h with h
      obtain ⟨ha, hb, hc⟩ := takeDigits_eq h
      refine ⟨ha, Or.inr ?_⟩
      cases ip with
      | nil =>
        rw [ha, List.nil_append] at hd
        rw [hd] at hc
        exact absurd hc (by simp)
      | cons c t =>
        refine ⟨c, t, rfl, hb c (List.mem_cons_self c t), ?_,
          fun d hd2 => hb d (List.mem_cons_of_mem c hd2)⟩
        intro heq
        rw [ha, List.cons_append, peekc_cons, heq] at h0
        exact h0 rfl
    · rw [if_neg hd] at h
      exact absurd h (by simp)

theorem scanFrac_token {fp : List Char} (r : List Char) (h : FracOk fp)
    (hr : isdigitB (peekc r) = false) (hr2 : fp = [] → peekc r ≠ '.') :
    scanFrac (fp ++ r) = .ok (fp, r) := by
  rcases h with rfl | ⟨ds, rfl, hne, hds⟩
  · rw [List.nil_append, scanFrac, if_neg (hr2 rfl)]
  · rw [List.cons_append, scanFrac, peekc_cons, if_pos rfl, List.tail_cons,
      takeDigits_all r hds hr]
    simp [hne]

theorem scanFrac_eq {s fp r : List Char} (h : scanFrac s = .ok (fp, r)) :
    s = fp ++ r ∧ FracOk fp ∧ (fp = [] → peekc r ≠ '.') ∧
      (fp ≠ [] → isdigitB (peekc r) = false) := by
  rw [scanFrac] at h
  by_cases hdot : peekc s = '.'
  · rw [if_pos hdot] at h
    by_cases hemp : (takeDigits s.tail).1.isEmpty
    · rw [if_pos hemp] at h
      exact absurd h (by simp)
    · rw [if_neg hemp] at h
      injection h with h
      injection h with h1 h2
      cases s with
      | nil => simp [peekc_nil] at hdot
      | cons c t =>
        rw [peekc_cons] at hdot
        subst hdot
        rw [List.tail_cons] at h1 h2 hemp
        obtain ⟨ha, hb, hc⟩ := takeDigits_eq
          (Prod.ext rfl h2 : takeDigits t = ((takeDigits t).1, r))
        refine ⟨by rw [← h1, List.cons_append, ← ha],
          Or.inr ⟨(takeDigits t).1, h1.symm, ?_, hb⟩,
          fun hfp => absurd (h1 ▸ hfp) (by simp), fun _ => hc⟩
        intro hnil
        rw [hnil] at hemp
        exact hemp rfl
  · rw [if_neg hdot] at h
    injection h with h
    injection h with h1 h2
    refine ⟨by rw [← h1, ← h2, List.nil_append], Or.inl h1.symm, fun _ => h2 ▸ hdot, ?_⟩
    intro hne
    exact absurd h1.symm hne

theorem scanFrac_err {s : List Char} (h : scanFrac s = .error ()) :
    ∃ t, s = '.' :: t ∧ isdigitB (peekc t) = false := by
  rw [scanFrac] at h
  by_cases hdot : peekc s = '.'
  · rw [if_pos hdot] at h
    cases s with
    | nil => simp [peekc_nil] at hdot
    | cons c t =>
      rw [peekc_cons] at hdot
      subst hdot
      refine ⟨t, rfl, ?_⟩
      rw [List.tail_cons] at h
      by_cases hemp : (takeDigits t).1.isEmpty
      · cases ht : takeDigits t with
        | mk a b =>
          rw [ht] at hemp
          obtain ⟨ha, _, hc⟩ := takeDigits_eq ht
          simp at hemp
          subst hemp
          rw [List.nil_append] at ha
          rw [← ha] at hc
          exact hc
      · rw [if_neg hemp] at h
        exact absurd h (by simp)
  · rw [if_neg hdot] at h
    exact absurd h (by simp)

theorem scanExp_token {ep : List Char} (r : List Char) (h : ExpOk ep)
    (hr : isdigitB (peekc r) = false)
    (hr2 : ep = [] → peekc r ≠ 'e' ∧ peekc r ≠ 'E') :
    scanExp (ep ++ r) = .ok (ep, r) := by
  rcases h with rfl | ⟨e, sg, ds, rfl, he, hsg, hne, hds⟩
  · rw [List.nil_append, scanExp, if_neg (by
      intro hor
      rcases hor with h1 | h1
      · exact (hr2 rfl).1 h1
      · exact (hr2 rfl).2 h1)]
  · have hd : ∃ d dt, ds = d :: dt := by
      cases ds with
      | nil => exact absurd rfl hne
      | cons d dt => exact ⟨d, dt, rfl⟩
    obtain ⟨d, dt, rfl⟩ := hd
    have hdd : isdigitB d = true := hds d (List.mem_cons_self d dt)
    have htd : takeDigits (d :: (dt ++ r)) = (d :: dt, r) := by
      rw [← List.cons_append]
      exact takeDigits_all r hds hr
    rcases hsg with rfl | rfl | rfl
    · simp only [List.nil_append, List.cons_append, scanExp, peekc_cons, List.tail_cons]
      rw [if_pos he]
      simp [isdigitB_ne_plus hdd, isdigitB_ne_minus hdd, htd]
    · simp only [List.cons_append, List.nil_append, scanExp, peekc_cons, List.tail_cons]
      rw [if_pos he]
      simp [htd]
    · simp only [List.cons_append, List.nil_append, scanExp, peekc_cons, List.tail_cons]
      rw [if_pos he]
      simp [htd]

theorem scanExp_eq {s ep r : List Char} (h : scanExp s = .ok (ep, r)) :
    s = ep ++ r ∧ ExpOk ep := by
  rw [scanExp] at h
  by_cases he : peekc s = 'e' ∨ peekc s = 'E'
  · rw [if_pos he] at h
    cases s with
    | nil =>
      rcases he with h1 | h1 <;> rw [peekc_nil] at h1 <;> exact absurd h1 (by decide)
    | cons c t =>
      rw [peekc_cons] at he
      simp only [peekc_cons, List.tail_cons] at h
      by_cases hp : peekc t = '+'
      · obtain ⟨t2, rfl⟩ : ∃ t2, t = '+' :: t2 := by
          cases t with
          | nil => rw [peekc_nil] at hp; exact absurd hp (by decide)
          | cons a t2 => rw [peekc_cons] at hp; exact ⟨t2, by rw [hp]⟩
        rw [if_pos hp] at h
        simp only [List.length_cons, List.length_nil, List.drop_succ_cons,
          List.drop_zero] at h
        by_cases hemp : (takeDigits t2).1.isEmpty
        · rw [if_pos hemp] at h
          exact absurd h (by simp)
        · rw [if_neg hemp] at h
          injection h with h
          injection h with h1 h2
          obtain ⟨ha, hb, _⟩ := takeDigits_eq
            (Prod.ext rfl h2 : takeDigits t2 = ((takeDigits t2).1, r))
          constructor
          · rw [← h1]
            simp only [List.cons_append, List.nil_append, List.append_assoc]
            exact congrArg (fun x => c :: '+' :: x) ha
          · right
            refine ⟨c, ['+'], (takeDigits t2).1, by rw [← h1]; rfl, he,
              Or.inr (Or.inl rfl), ?_, hb⟩
            intro hnil
            rw [hnil] at hemp
            exact hemp rfl
      · by_cases hm : peekc t = '-'
        · obtain ⟨t2, rfl⟩ : ∃ t2, t = '-' :: t2 := by
            cases t with
            | nil => rw [peekc_nil] at hm; exact absurd hm (by decide)
            | cons a t2 => rw [peekc_cons] at hm; exact ⟨t2, by rw [hm]⟩
          rw [if_neg hp, if_pos hm] at h
          simp only [List.length_cons, List.length_nil, List.drop_succ_cons,
            List.drop_zero] at h
          by_cases hemp : (takeDigits t2).1.isEmpty
          · rw [if_pos hemp] at h
            exact absurd h (by simp)
          · rw [if_neg hemp] at h
            injection h with h
            injection h with h1 h2
            obtain ⟨ha, hb, _⟩ := takeDigits_eq
              (Prod.ext rfl h2 : takeDigits t2 = ((takeDigits t2).1, r))
            constructor
            · rw [← h1]
              simp only [List.cons_append, List.nil_append, List.append_assoc]
              exact congrArg (fun x => c :: '-' :: x) ha
            · right
              refine ⟨c, ['-'], (takeDigits t2).1, by rw [← h1]; rfl, he,
                Or.inr (Or.inr rfl), ?_, hb⟩
              intro hnil
              rw [hnil] at hemp
              exact hemp rfl
        · rw [if_neg hp, if_neg hm] at h
          simp only [List.length_nil, List.drop_zero] at h
          by_cases hemp : (takeDigits t).1.isEmpty
          · rw [if_pos hemp] at h
            exact absurd h (by simp)
          · rw [if_neg hemp] at h
            injection h with h
            injection h with h1 h2
            obtain ⟨ha, hb, _⟩ := takeDigits_eq
              (Prod.ext rfl h2 : takeDigits t = ((takeDigits t).1, r))
            constructor
            · rw [← h1]
              simp only [List.cons_append, List.nil_append, List.append_assoc]
              exact congrArg (fun x => c :: x) ha
            · right
              refine ⟨c, [], (takeDigits t).1, by rw [← h1]; rfl, he,
                Or.inl rfl, ?_, hb⟩
              intro hnil
              rw [hnil] at hemp
              exact hemp rfl
  · rw [if_neg he] at h
    injection h with h
    injection h with h1 h2
    rw [← h1, ← h2]
    exact ⟨by simp, Or.inl rfl⟩

theorem scanExp_err {s : List Char} {off : Nat} (h : scanExp s = .error off) :
    ∃ c sg t, s = c :: (sg ++ t) ∧ (c = 'e' ∨ c = 'E') ∧
      (sg = [] ∨ sg = ['+'] ∨ sg = ['-']) ∧ isdigitB (peekc t) = false ∧
      off = 1 + sg.length := by
  rw [scanExp] at h
  by_cases he : peekc s = 'e' ∨ peekc s = 'E'
  · rw [if_pos he] at h
    cases s with
    | nil =>
      rcases he with h1 | h1 <;> rw [peekc_nil] at h1 <;> exact absurd h1 (by decide)
    | cons c t =>
      rw [peekc_cons] at he
      simp only [peekc_cons, List.tail_cons] at h
      by_cases hp : peekc t = '+'
      · obtain ⟨t2, rfl⟩ : ∃ t2, t = '+' :: t2 := by
          cases t with
          | nil => rw [peekc_nil] at hp; exact absurd hp (by decide)
          | cons a t2 => rw [peekc_cons] at hp; exact ⟨t2, by rw [hp]⟩
        rw [if_pos hp] at h
        simp only [List.length_cons, List.length_nil, List.drop_succ_cons,
          List.drop_zero] at h
        by_cases hemp : (takeDigits t2).1.isEmpty
        · cases ht : takeDigits t2 with
          | mk a b =>
            rw [ht] at hemp
            obtain ⟨ha, _, hc2⟩ := takeDigits_eq ht
            simp at hemp
            subst hemp
            rw [List.nil_append] at ha
            subst ha
            rw [if_pos (by rw [ht]; rfl)] at h
            injection h with h
            exact ⟨c, ['+'], t2, rfl, he, Or.inr (Or.inl rfl), hc2, h.symm⟩
        · rw [if_neg hemp] at h
          exact absurd h (by simp)
      · by_cases hm : peekc t = '-'
        · obtain ⟨t2, rfl⟩ : ∃ t2, t = '-' :: t2 := by
            cases t with
            | nil => rw [peekc_nil] at hm; exact absurd hm (by decide)
            | cons a t2 => rw [peekc_cons] at hm; exact ⟨t2, by rw [hm]⟩
          rw [if_neg hp, if_pos hm] at h
          simp only [List.length_cons, List.length_nil, List.drop_succ_cons,
            List.drop_zero] at h
          by_cases hemp : (takeDigits t2).1.isEmpty
          · cases ht : takeDigits t2 with
            | mk a b =>
              rw [ht] at hemp
              obtain ⟨ha, _, hc2⟩ := takeDigits_eq ht
              simp at hemp
              subst hemp
              rw [List.nil_append] at ha
              subst ha
              rw [if_pos (by rw [ht]; rfl)] at h
              injection h with h
              exact ⟨c, ['-'], t2, rfl, he, Or.inr (Or.inr rfl), hc2, h.symm⟩
          · rw [if_neg hemp] at h
            exact absurd h (by simp)
        · rw [if_neg hp, if_neg hm] at h
          simp only [List.length_nil, List.drop_zero] at h
          by_cases hemp : (takeDigits t).1.isEmpty
          · cases ht : takeDigits t with
            | mk a b =>
              rw [ht] at hemp
              obtain ⟨ha, _, hc2⟩ := takeDigits_eq ht
              simp at hemp
              subst hemp
              rw [List.nil_append] at ha
              subst ha
              rw [if_pos (by rw [ht]; rfl)] at h
              injection h with h
              exact ⟨c, [], t, by simp, he, Or.inl rfl, hc2, h.symm⟩
          · rw [if_neg hemp] at h
            exact absurd h (by simp)
  · rw [if_neg he] at h
    exact absurd h (by simp)


theorem expHead_not_digit {ep rest : List Char} (hep : ExpOk ep)
    (hr : isdigitB (peekc rest) = false) : isdigitB (peekc (ep ++ rest)) = false := by
  rcases hep with rfl | ⟨e, sg, ds, rfl, he, _, _, _⟩
  · simpa using hr
  · rw [List.cons_append, peekc_cons]
    rcases he with rfl | rfl <;> decide

theorem fracHead_not_digit {fp rest : List Char} (hfp : FracOk fp)
    (hr : isdigitB (peekc rest) = false) : isdigitB (peekc (fp ++ rest)) = false := by
  rcases hfp with rfl | ⟨ds, rfl, _, _⟩
  · simpa using hr
  · rw [List.cons_append, peekc_cons]
    decide

theorem intPart_head {ip : List Char} (h : IntPartOk ip) :
    ∃ c t, ip = c :: t ∧ isdigitB c = true := by
  rcases h with h | ⟨c, t, h, hc, _, _⟩
  · exact ⟨'0', [], h, by decide⟩
  · exact ⟨c, t, h, hc⟩

theorem parse_number_token {sgn ip fp ep : List Char} (rest : List Char) (pos : Nat)
    (hs : SignOk sgn) (hip : IntPartOk ip) (hfp : FracOk fp) (hep : ExpOk ep)
    (hr : NumRestOk fp ep rest) :
    parse_number (sgn ++ (ip ++ (fp ++ (ep ++ rest)))) pos =
      .ok (.number (stodModel (sgn ++ ip ++ fp ++ ep)), rest,
        pos + sgn.length + ip.length + fp.length + ep.length) := by
  obtain ⟨hr1, hr2, hr3⟩ := hr
  have hA : isdigitB (peekc (fp ++ (ep ++ rest))) = false :=
    fracHead_not_digit hfp (expHead_not_digit hep hr1)
  have hB : isdigitB (peekc (ep ++ rest)) = false := expHead_not_digit hep hr1
  have hfr2 : fp = [] → peekc (ep ++ rest) ≠ '.' := by
    intro hfp0
    rcases hep with rfl | ⟨e, sg, ds, rfl, he, _, _, _⟩
    · rw [List.nil_append]
      exact hr3 hfp0 rfl
    · rw [List.cons_append, peekc_cons]
      rcases he with rfl | rfl <;> decide
  have hsi : scanIntPart (ip ++ (fp ++ (ep ++ rest))) = some (ip, fp ++ (ep ++ rest)) :=
    scanIntPart_token _ hip hA
  have hsf : scanFrac (fp ++ (ep ++ rest)) = .ok (fp, ep ++ rest) :=
    scanFrac_token _ hfp hB hfr2
  have hse : scanExp (ep ++ rest) = .ok (ep, rest) := scanExp_token _ hep hr1 hr2
  obtain ⟨c0, t0, hip_eq, hc0⟩ := intPart_head hip
  rcases hs with rfl | rfl
  · have hpk : peekc (ip ++ (fp ++ (ep ++ rest))) = c0 := by
      rw [hip_eq, List.cons_append, peekc_cons]
    rw [parse_number]
    simp only [List.nil_append]
    rw [if_neg (by rw [hpk]; exact isdigitB_ne_minus hc0)]
    dsimp only
    simp only [hsi, hsf, hse]
    rfl
  · rw [parse_number]
    simp only [List.cons_append, List.nil_append]
    rw [if_pos (show peekc ('-' :: (ip ++ (fp ++ (ep ++ rest)))) = '-' from rfl)]
    simp only [List.tail_cons]
    simp only [hsi, hsf, hse]
    simp only [List.cons_append, List.nil_append]

theorem parse_number_ok {rem : List Char} {pos : Nat} {j : Json} {rest : List Char}
    {p2 : Nat} (h : parse_number rem pos = .ok (j, rest, p2)) :
    ∃ sgn ip fp ep, SignOk sgn ∧ IntPartOk ip ∧ FracOk fp ∧ ExpOk ep ∧
      rem = sgn ++ (ip ++ (fp ++ (ep ++ rest))) ∧
      j = .number (stodModel (sgn ++ ip ++ fp ++ ep)) ∧
      p2 = pos + sgn.length + ip.length + fp.length + ep.length := by
  rw [parse_number] at h
  by_cases hm : peekc rem = '-'
  · rw [if_pos hm] at h
    cases rem with
    | nil => rw [peekc_nil] at hm; exact absurd hm (by decide)
    | cons c t =>
      rw [peekc_cons] at hm
      subst hm
      simp only [List.tail_cons] at h
      cases hsi : scanIntPart t with
      | none => rw [hsi] at h; exact absurd h (by simp)
      | some pr =>
        obtain ⟨ip, rem2⟩ := pr
        obtain ⟨ht, hip⟩ := scanIntPart_eq hsi
        rw [hsi] at h
        simp only [] at h
        cases hsf : scanFrac rem2 with
        | error u => rw [hsf] at h; exact absurd h (by simp)
        | ok pr2 =>
          obtain ⟨fp, rem3⟩ := pr2
          obtain ⟨ht2, hfp, _, _⟩ := scanFrac_eq hsf
          rw [hsf] at h
          simp only [] at h
          cases hse : scanExp rem3 with
          | error off => rw [hse] at h; exact absurd h (by simp)
          | ok pr3 =>
            obtain ⟨ep, rem4⟩ := pr3
            obtain ⟨ht3, hep⟩ := scanExp_eq hse
            rw [hse] at h
            simp only [] at h
            injection h with h
            injection h with h1 h4
            injection h4 with h2 h3
            refine ⟨['-'], ip, fp, ep, Or.inr rfl, hip, hfp, hep, ?_, h1.symm, ?_⟩
            · rw [ht, ht2, ht3, ← h2]
              simp
            · exact h3.symm
  · rw [if_neg hm] at h
    cases hsi : scanIntPart rem with
    | none => rw [hsi] at h; exact absurd h (by simp)
    | some pr =>
      obtain ⟨ip, rem2⟩ := pr
      obtain ⟨ht, hip⟩ := scanIntPart_eq hsi
      rw [hsi] at h
      simp only [] at h
      cases hsf : scanFrac rem2 with
      | error u => rw [hsf] at h; exact absurd h (by simp)
      | ok pr2 =>
        obtain ⟨fp, rem3⟩ := pr2
        obtain ⟨ht2, hfp, _, _⟩ := scanFrac_eq hsf
        rw [hsf] at h
        simp only [] at h
        cases hse : scanExp rem3 with
        | error off => rw [hse] at h; exact absurd h (by simp)
        | ok pr3 =>
          obtain ⟨ep, rem4⟩ := pr3
          obtain ⟨ht3, hep⟩ := scanExp_eq hse
          rw [hse] at h
          simp only [] at h
          injection h with h
          injection h with h1 h4
          injection h4 with h2 h3
          refine ⟨[], ip, fp, ep, Or.inl rfl, hip, hfp, hep, ?_, h1.symm, ?_⟩
          · rw [ht, ht2, ht3, ← h2]
            simp
          · exact h3.symm

theorem scanFrac_err_fwd {t : List Char} (ht : isdigitB (peekc t) = false) :
    scanFrac ('.' :: t) = .error () := by
  have htd : takeDigits t = ([], t) := by
    cases t with
    | nil => rfl
    | cons c u =>
      rw [peekc_cons] at ht
      exact takeDigits_not_digit u ht
  rw [scanFrac, peekc_cons, if_pos rfl, List.tail_cons, htd]
  rfl

theorem scanExp_err_fwd {ec : Char} {sg t : List Char} (he : ec = 'e' ∨ ec = 'E')
    (hsg : sg = [] ∨ sg = ['+'] ∨ sg = ['-']) (ht : isdigitB (peekc t) = false)
    (htsg : sg = [] → peekc t ≠ '+' ∧ peekc t ≠ '-') :
    scanExp (ec :: (sg ++ t)) = .error (1 + sg.length) := by
  have htd : takeDigits t = ([], t) := by
    cases t with
    | nil => rfl
    | cons c u =>
      rw [peekc_cons] at ht
      exact takeDigits_not_digit u ht
  rcases hsg with rfl | rfl | rfl
  · rw [List.nil_append, scanExp, peekc_cons, if_pos he, List.tail_cons,
      if_neg ((htsg rfl).1), if_neg ((htsg rfl).2)]
    simp [htd]
  · rw [scanExp, peekc_cons, if_pos he, List.tail_cons, List.cons_append, peekc_cons]
    simp [htd]
  · rw [scanExp, peekc_cons, if_pos he, List.tail_cons, List.cons_append, peekc_cons]
    simp [htd]

theorem parse_number_dot_fail {sgn ip : List Char} (t : List Char) (pos : Nat)
    (hs : SignOk sgn) (hip : IntPartOk ip) (ht : isdigitB (peekc t) = false) :
    parse_number (sgn ++ (ip ++ ('.' :: t))) pos =
      .error ⟨"Invalid number: expected digit after decimal point",
        pos + sgn.length + ip.length + 1⟩ := by
  have hsi : scanIntPart (ip ++ ('.' :: t)) = some (ip, '.' :: t) :=
    scanIntPart_token _ hip (by rw [peekc_cons]; decide)
  have hsf : scanFrac ('.' :: t) = .error () := scanFrac_err_fwd ht
  obtain ⟨c0, t0, hip_eq, hc0⟩ := intPart_head hip
  rcases hs with rfl | rfl
  · have hpk : peekc (ip ++ ('.' :: t)) = c0 := by
      rw [hip_eq, List.cons_append, peekc_cons]
    rw [parse_number]
    simp only [List.nil_append]
    rw [if_neg (by rw [hpk]; exact isdigitB_ne_minus hc0)]
    dsimp only
    simp only [hsi, hsf]
  · rw [parse_number]
    simp only [List.cons_append, List.nil_append]
    rw [if_pos (show peekc ('-' :: (ip ++ ('.' :: t))) = '-' from rfl)]
    simp only [List.tail_cons]
    simp only [hsi, hsf]

theorem parse_number_exp_fail {sgn ip fp : List Char} {ec : Char} {sg : List Char}
    (t : List Char) (pos : Nat) (hs : SignOk sgn) (hip : IntPartOk ip) (hfp : FracOk fp)
    (he : ec = 'e' ∨ ec = 'E') (hsg : sg = [] ∨ sg = ['+'] ∨ sg = ['-'])
    (ht : isdigitB (peekc t) = false)
    (htsg : sg = [] → peekc t ≠ '+' ∧ peekc t ≠ '-') :
    parse_number (sgn ++ (ip ++ (fp ++ (ec :: (sg ++ t))))) pos =
      .error ⟨"Invalid number: expected digit in exponent",
        pos + sgn.length + ip.length + fp.length + (1 + sg.length)⟩ := by
  have hxe : isdigitB (peekc (ec :: (sg ++ t))) = false := by
    rw [peekc_cons]
    rcases he with rfl | rfl <;> decide
  have hsi : scanIntPart (ip ++ (fp ++ (ec :: (sg ++ t)))) =
      some (ip, fp ++ (ec :: (sg ++ t))) :=
    scanIntPart_token _ hip (fracHead_not_digit hfp hxe)
  have hsf : scanFrac (fp ++ (ec :: (sg ++ t))) = .ok (fp, ec :: (sg ++ t)) :=
    scanFrac_token _ hfp hxe (by
      intro _
      rw [peekc_cons]
      rcases he with rfl | rfl <;> decide)
  have hse : scanExp (ec :: (sg ++ t)) = .error (1 + sg.length) :=
    scanExp_err_fwd he hsg ht htsg
  obtain ⟨c0, t0, hip_eq, hc0⟩ := intPart_head hip
  rcases hs with rfl | rfl
  · have hpk : peekc (ip ++ (fp ++ (ec :: (sg ++ t)))) = c0 := by
      rw [hip_eq, List.cons_append, peekc_cons]
    rw [parse_number]
    simp only [List.nil_append]
    rw [if_neg (by rw [hpk]; exact isdigitB_ne_minus hc0)]
    dsimp only
    simp only [hsi, hsf, hse]
  · rw [parse_number]
    simp only [List.cons_append, List.nil_append]
    rw [if_pos (show peekc ('-' :: (ip ++ (fp ++ (ec :: (sg ++ t))))) = '-' from rfl)]
    simp only [List.tail_cons]
    simp only [hsi, hsf, hse]

theorem digit_not_dispatch {c : Char} (h : isdigitB c = true) :
    c ≠ 'n' ∧ c ≠ 't' ∧ c ≠ 'f' ∧ c ≠ '"' ∧ c ≠ '[' ∧ c ≠ '\x7b' := by
  refine ⟨?_, ?_, ?_, ?_, ?_, ?_⟩ <;>
    (intro heq; rw [heq] at h; exact absurd h (by decide))

theorem digit_not_space {c : Char} (h : isdigitB c = true) : isspaceB c = false := by
  by_contra hc
  have hc2 : isspaceB c = true := by
    cases hcc : isspaceB c with
    | false => exact absurd hcc hc
    | true => rfl
  simp only [isspaceB, Bool.or_eq_true, decide_eq_true_eq] at hc2
  rcases hc2 with (((((rfl | rfl) | rfl) | rfl) | rfl) | rfl) <;>
    exact absurd h (by decide)

theorem parse_value_number {c : Char} {t : List Char} (pos fuel : Nat)
    (hnw : isspaceB c = false) (hd : c = '-' ∨ isdigitB c = true) :
    parse_value (fuel + 1) (c :: t) pos = parse_number (c :: t) pos := by
  rw [parse_value, skip_whitespace_not_space t pos hnw]
  dsimp only
  rcases hd with rfl | hd
  · rw [if_neg (by decide), if_neg (by decide), if_neg (by decide), if_neg (by decide),
      if_neg (by decide), if_pos (Or.inl rfl)]
  · obtain ⟨h1, h2, h3, h4, h5, h6⟩ := digit_not_dispatch hd
    rw [if_neg h1, if_neg (by
        intro hor
        rcases hor with hh | hh
        · exact h2 hh
        · exact h3 hh),
      if_neg h4, if_neg h5, if_neg h6, if_pos (Or.inr hd)]

theorem stodModel_intToken {sgn : List Char} {d : Char} {dt : List Char} (hs : SignOk sgn)
    (hds : ∀ c ∈ d :: dt, isdigitB c = true) :
    stodModel (sgn ++ (d :: dt)) =
      (if sgn = [] then 1 else -1) * (natOfDigits (d :: dt) : Rat) := by
  have hd : isdigitB d = true := hds d (List.mem_cons_self d dt)
  have htd : takeDigits (d :: dt) = (d :: dt, []) := takeDigits_all_nil hds
  rcases hs with rfl | rfl
  · rw [List.nil_append, stodModel]
    simp [peekc_cons, peekc_nil, htd, isdigitB_ne_minus hd, isdigitB_ne_plus hd,
      (show ('\x00' : Char) ≠ '.' by decide), (show ('\x00' : Char) ≠ 'e' by decide),
      (show ('\x00' : Char) ≠ 'E' by decide),
      (show natOfDigits ([] : List Char) = 0 from rfl)]
  · rw [stodModel]
    simp only [List.cons_append, List.nil_append, peekc_cons, List.tail_cons]
    simp [peekc_cons, peekc_nil, htd, isdigitB_ne_minus hd, isdigitB_ne_plus hd,
      (show ('\x00' : Char) ≠ '.' by decide), (show ('\x00' : Char) ≠ 'e' by decide),
      (show ('\x00' : Char) ≠ 'E' by decide),
      (show natOfDigits ([] : List Char) = 0 from rfl)]

theorem stodModel_intChars (n : Int) : stodModel (intChars n) = (n : Rat) := by
  obtain ⟨d, dt, hnc, _⟩ := natChars_head n.natAbs
  have hds : ∀ c ∈ d :: dt, isdigitB c = true := hnc ▸ natChars_digits n.natAbs
  have hval : natOfDigits (d :: dt) = n.natAbs := by
    rw [← hnc, natOfDigits_natChars]
  rw [intChars]
  by_cases hn : n < 0
  · rw [if_pos hn, hnc]
    have h1 : ('-' :: (d :: dt)) = ['-'] ++ (d :: dt) := rfl
    rw [h1, stodModel_intToken (Or.inr rfl) hds, hval]
    have h2 : (n.natAbs : Rat) = -(n : Rat) := by
      rw [Int.cast_natAbs, abs_of_neg hn]
      push_cast
      ring
    rw [if_neg (by decide), h2]
    ring
  · rw [if_neg hn, hnc, show (d :: dt) = [] ++ (d :: dt) from rfl,
      stodModel_intToken (Or.inl rfl) hds, hval]
    have h2 : (n.natAbs : Rat) = (n : Rat) := by
      rw [Int.cast_natAbs, abs_of_nonneg (le_of_not_lt hn)]
    rw [if_pos rfl, h2]
    ring

theorem numChars_int {q : Rat} (h : q.den = 1) : numChars q = intChars q.num := by
  have h2 : ((q.num : Int) : Rat) = q := (Rat.den_eq_one_iff q).mp h
  have htr : ratTruncLL q = q.num := by
    rw [ratTruncLL, h]
    simp
  rw [numChars, htr, if_pos h2.symm]

theorem intChars_split (n : Int) :
    ∃ sgn, SignOk sgn ∧ intChars n = sgn ++ natChars n.natAbs := by
  rw [intChars]
  by_cases hn : n < 0
  · exact ⟨['-'], Or.inr rfl, by rw [if_pos hn]; rfl⟩
  · exact ⟨[], Or.inl rfl, by rw [if_neg hn]; rfl⟩

theorem intChars_no_dot (n : Int) : '.' ∉ intChars n := by
  intro hmem
  rw [intChars] at hmem
  have hdig : ∀ c ∈ natChars n.natAbs, isdigitB c = true := natChars_digits n.natAbs
  by_cases hn : n < 0
  · rw [if_pos hn] at hmem
    rcases List.mem_cons.mp hmem with h | h
    · exact absurd h (by decide)
    · exact absurd (hdig _ h) (by decide)
  · rw [if_neg hn] at hmem
    exact absurd (hdig _ hmem) (by decide)

theorem dropWhile_digits {ds : List Char} (r : List Char)
    (h : ∀ c ∈ ds, isdigitB c = true) (hr : isdigitB (peekc r) = false) :
    (ds ++ r).dropWhile isdigitB = r := by
  induction ds with
  | nil =>
    cases r with
    | nil => rfl
    | cons c t =>
      rw [peekc_cons] at hr
      rw [List.nil_append, List.dropWhile_cons, if_neg (by rw [hr]; exact Bool.false_ne_true)]
  | cons c t ih =>
    rw [List.cons_append, List.dropWhile_cons,
      if_pos (h c (List.mem_cons_self c t)), ih (fun d hd => h d (List.mem_cons_of_mem c hd))]

theorem expG_of_shape {ep : List Char} (hep : ExpOk ep) : expG ep = true := by
  rcases hep with rfl | ⟨e, sg, ds, rfl, he, hsg, hne, hds⟩
  · rfl
  · obtain ⟨d, dt, rfl⟩ : ∃ d dt, ds = d :: dt := by
      cases ds with
      | nil => exact absurd rfl hne
      | cons d dt => exact ⟨d, dt, rfl⟩
    have hdd : isdigitB d = true := hds d (List.mem_cons_self d dt)
    have hdw : ((d :: dt).dropWhile isdigitB).isEmpty = true := by
      rw [List.dropWhile_eq_nil_iff.mpr hds]
      rfl
    rcases hsg with rfl | rfl | rfl
    · rw [List.nil_append, expG, if_neg (by simp), if_pos (by rw [peekc_cons]; exact he),
        List.tail_cons]
      rw [if_neg (by
        rw [peekc_cons]
        intro hor
        rcases hor with hh | hh
        · exact isdigitB_ne_plus hdd hh
        · exact isdigitB_ne_minus hdd hh)]
      simp only [List.nil_append, peekc_cons, hdd, hdw, Bool.and_self]
    · rw [expG, if_neg (by simp), if_pos (by rw [peekc_cons]; exact he), List.tail_cons,
        List.cons_append, if_pos (by rw [peekc_cons]; exact Or.inl rfl), List.tail_cons]
      simp only [List.nil_append, peekc_cons, hdd, hdw, Bool.and_self]
    · rw [expG, if_neg (by simp), if_pos (by rw [peekc_cons]; exact he), List.tail_cons,
        List.cons_append, if_pos (by rw [peekc_cons]; exact Or.inr rfl), List.tail_cons]
      simp only [List.nil_append, peekc_cons, hdd, hdw, Bool.and_self]

theorem fracExpG_of_shape {fp ep : List Char} (hfp : FracOk fp) (hep : ExpOk ep) :
    fracExpG (fp ++ ep) = true := by
  rcases hfp with rfl | ⟨ds, rfl, hne, hds⟩
  · rw [List.nil_append, fracExpG]
    rcases hep with rfl | ⟨e, sg, ds, rfl, he, hsg, hne, hds⟩
    · rw [if_neg (by rw [peekc_nil]; decide)]
      rfl
    · rw [if_neg (by
        rw [peekc_cons]
        rcases he with rfl | rfl <;> decide)]
      exact expG_of_shape (Or.inr ⟨e, sg, ds, rfl, he, hsg, hne, hds⟩)
  · obtain ⟨d, dt, rfl⟩ : ∃ d dt, ds = d :: dt := by
      cases ds with
      | nil => exact absurd rfl hne
      | cons d dt => exact ⟨d, dt, rfl⟩
    have hdd : isdigitB d = true := hds d (List.mem_cons_self d dt)
    rw [List.cons_append, fracExpG, if_pos (by rw [peekc_cons]), List.tail_cons]
    have hxe : isdigitB (peekc ep) = false := by
      have h0 := @expHead_not_digit _ [] hep (by rw [peekc_nil]; decide)
      simpa using h0
    have h1 : peekc ((d :: dt) ++ ep) = d := by rw [List.cons_append, peekc_cons]
    rw [h1, hdd, dropWhile_digits ep hds hxe, expG_of_shape hep]
    rfl

theorem numGrammar_of_shape {sgn ip fp ep : List Char} (hs : SignOk sgn)
    (hip : IntPartOk ip) (hfp : FracOk fp) (hep : ExpOk ep) :
    numGrammar (sgn ++ (ip ++ (fp ++ ep))) = true := by
  have hfe : fracExpG (fp ++ ep) = true := fracExpG_of_shape hfp hep
  have hxe0 : isdigitB (peekc ep) = false := by
    have h0 := @expHead_not_digit _ [] hep (by rw [peekc_nil]; decide)
    simpa using h0
  have hxf : isdigitB (peekc (fp ++ ep)) = false := fracHead_not_digit hfp hxe0
  have hmain : ∀ t0, t0 = ip ++ (fp ++ ep) →
      ((if t0 = [] then false
        else if peekc t0 = '0' then fracExpG t0.tail
        else isdigitB (peekc t0) && fracExpG (t0.tail.dropWhile isdigitB)) = true) := by
    intro t0 ht0
    rcases hip with h | ⟨c, t, hipeq, hc, hc0, ht⟩
    · subst h
      subst ht0
      rw [List.cons_append, if_neg (by simp), if_pos (by rw [peekc_cons]), List.tail_cons]
      exact hfe
    · subst hipeq
      subst ht0
      rw [List.cons_append, if_neg (by simp), if_neg (by rw [peekc_cons]; exact hc0)]
      rw [peekc_cons, hc, List.tail_cons, dropWhile_digits _ ht hxf, hfe]
      rfl
  rcases hs with rfl | rfl
  · obtain ⟨c0, t0, hipeq, hc0⟩ := intPart_head hip
    rw [List.nil_append, numGrammar]
    have hsign : (if peekc (ip ++ (fp ++ ep)) = '-' then (ip ++ (fp ++ ep)).tail
        else ip ++ (fp ++ ep)) = ip ++ (fp ++ ep) :=
      if_neg (by rw [hipeq, List.cons_append, peekc_cons]; exact isdigitB_ne_minus hc0)
    rw [hsign]
    exact hmain _ rfl
  · rw [numGrammar]
    simp only [List.cons_append, List.nil_append]
    have hsign : (if peekc ('-' :: (ip ++ (fp ++ ep))) = '-' then
        ('-' :: (ip ++ (fp ++ ep))).tail else '-' :: (ip ++ (fp ++ ep))) = ip ++ (fp ++ ep) := by
      rw [if_pos (show peekc ('-' :: (ip ++ (fp ++ ep))) = '-' from rfl), List.tail_cons]
    rw [hsign]
    exact hmain _ rfl

theorem takeWhile_digits_head {d : Char} (t : List Char) (hd : isdigitB d = true) :
    ∃ dt, (d :: t).takeWhile isdigitB = d :: dt := by
  rw [List.takeWhile_cons, if_pos hd]
  exact ⟨t.takeWhile isdigitB, rfl⟩

theorem expG_shape {u : List Char} (h : expG u = true) : ExpOk u := by
  rw [expG] at h
  by_cases hnil : u = []
  · exact Or.inl hnil
  · rw [if_neg hnil] at h
    by_cases he : peekc u = 'e' ∨ peekc u = 'E'
    · rw [if_pos he] at h
      cases u with
      | nil => exact absurd rfl hnil
      | cons c t =>
        rw [peekc_cons] at he
        simp only [List.tail_cons] at h
        by_cases hsg : peekc t = '+' ∨ peekc t = '-'
        · rw [if_pos hsg] at h
          obtain ⟨hd1, hd2⟩ := Bool.and_eq_true_iff.mp h
          have htne : t ≠ [] := by
            intro hte
            rw [hte, peekc_nil] at hsg
            rcases hsg with hh | hh <;> exact absurd hh (by decide)
          obtain ⟨p, t2, rfl⟩ : ∃ p t2, t = p :: t2 := by
            cases t with
            | nil => exact absurd rfl htne
            | cons p t2 => exact ⟨p, t2, rfl⟩
          rw [peekc_cons] at hsg
          simp only [List.tail_cons] at hd1 hd2
          have ht2ne : t2 ≠ [] := by
            intro hte
            rw [hte, peekc_nil] at hd1
            exact absurd hd1 (by decide)
          have ht2all : ∀ x ∈ t2, isdigitB x = true := by
            intro x hx
            exact List.dropWhile_eq_nil_iff.mp (by
              cases hdw : List.dropWhile isdigitB t2 with
              | nil => rfl
              | cons a b => rw [hdw] at hd2; exact absurd hd2 (by simp)) x hx
          right
          refine ⟨c, [p], t2, rfl, he, ?_, ht2ne, ht2all⟩
          rcases hsg with rfl | rfl
          · exact Or.inr (Or.inl rfl)
          · exact Or.inr (Or.inr rfl)
        · rw [if_neg hsg] at h
          obtain ⟨hd1, hd2⟩ := Bool.and_eq_true_iff.mp h
          have htne : t ≠ [] := by
            intro hte
            rw [hte, peekc_nil] at hd1
            exact absurd hd1 (by decide)
          have htall : ∀ x ∈ t, isdigitB x = true := by
            intro x hx
            exact List.dropWhile_eq_nil_iff.mp (by
              cases hdw : List.dropWhile isdigitB t with
              | nil => rfl
              | cons a b => rw [hdw] at hd2; exact absurd hd2 (by simp)) x hx
          exact Or.inr ⟨c, [], t, by rw [List.nil_append], he, Or.inl rfl, htne, htall⟩
    · rw [if_neg he] at h
      exact absurd h (by simp)

theorem fracExpG_shape {u : List Char} (h : fracExpG u = true) :
    ∃ fp ep, u = fp ++ ep ∧ FracOk fp ∧ ExpOk ep := by
  rw [fracExpG] at h
  by_cases hdot : peekc u = '.'
  · rw [if_pos hdot] at h
    cases u with
    | nil => rw [peekc_nil] at hdot; exact absurd hdot (by decide)
    | cons c t =>
      rw [peekc_cons] at hdot
      subst hdot
      simp only [List.tail_cons] at h
      obtain ⟨hd1, hd2⟩ := Bool.and_eq_true_iff.mp h
      obtain ⟨d, t2, rfl⟩ : ∃ d t2, t = d :: t2 := by
        cases t with
        | nil => rw [peekc_nil] at hd1; exact absurd hd1 (by decide)
        | cons d t2 => exact ⟨d, t2, rfl⟩
      rw [peekc_cons] at hd1
      obtain ⟨dt, htw⟩ := takeWhile_digits_head t2 hd1
      refine ⟨'.' :: ((d :: t2).takeWhile isdigitB), (d :: t2).dropWhile isdigitB,
        ?_, ?_, expG_shape hd2⟩
      · rw [List.cons_append, List.takeWhile_append_dropWhile]
      · right
        refine ⟨(d :: t2).takeWhile isdigitB, rfl, by rw [htw]; simp, ?_⟩
        intro x hx
        exact List.mem_takeWhile_imp hx
  · rw [if_neg hdot] at h
    exact ⟨[], u, (List.nil_append u).symm, Or.inl rfl, expG_shape h⟩

theorem shape_of_numGrammar {s : List Char} (h : numGrammar s = true) :
    ∃ sgn ip fp ep, s = sgn ++ (ip ++ (fp ++ ep)) ∧ SignOk sgn ∧ IntPartOk ip ∧
      FracOk fp ∧ ExpOk ep := by
  rw [numGrammar] at h
  by_cases hminus : peekc s = '-'
  · rw [if_pos hminus] at h
    cases s with
    | nil => rw [peekc_nil] at hminus; exact absurd hminus (by decide)
    | cons c t =>
      rw [peekc_cons] at hminus
      subst hminus
      simp only [List.tail_cons] at h
      by_cases htnil : t = []
      · rw [if_pos htnil] at h
        exact absurd h (by simp)
      · rw [if_neg htnil] at h
        by_cases hzero : peekc t = '0'
        · rw [if_pos hzero] at h
          obtain ⟨t2, rfl⟩ : ∃ t2, t = '0' :: t2 := by
            cases t with
            | nil => exact absurd rfl htnil
            | cons a t2 => rw [peekc_cons] at hzero; exact ⟨t2, by rw [hzero]⟩
          simp only [List.tail_cons] at h
          obtain ⟨fp, ep, heq, hfp, hep⟩ := fracExpG_shape h
          exact ⟨['-'], ['0'], fp, ep, by rw [heq]; rfl, Or.inr rfl, Or.inl rfl, hfp, hep⟩
        · rw [if_neg hzero] at h
          obtain ⟨hd1, hd2⟩ := Bool.and_eq_true_iff.mp h
          obtain ⟨d, t2, rfl⟩ : ∃ d t2, t = d :: t2 := by
            cases t with
            | nil => exact absurd rfl htnil
            | cons d t2 => exact ⟨d, t2, rfl⟩
          rw [peekc_cons] at hd1 hzero
          simp only [List.tail_cons] at h hd2
          obtain ⟨fp, ep, heq, hfp, hep⟩ := fracExpG_shape hd2
          refine ⟨['-'], d :: t2.takeWhile isdigitB, fp, ep, ?_,
            Or.inr rfl, ?_, hfp, hep⟩
          · have h2 : t2 = t2.takeWhile isdigitB ++ (fp ++ ep) := by
              conv_lhs => rw [← List.takeWhile_append_dropWhile isdigitB t2, heq]
            rw [show ('-' :: d :: t2 : List Char) = ['-'] ++ (d :: t2) from rfl,
              List.cons_append]
            exact congrArg (fun x => ['-'] ++ (d :: x)) h2
          · exact Or.inr ⟨d, t2.takeWhile isdigitB, rfl, hd1, hzero,
              fun x hx => List.mem_takeWhile_imp hx⟩
  · rw [if_neg hminus] at h
    by_cases htnil : s = []
    · rw [if_pos htnil] at h
      exact absurd h (by simp)
    · rw [if_neg htnil] at h
      by_cases hzero : peekc s = '0'
      · rw [if_pos hzero] at h
        obtain ⟨t2, rfl⟩ : ∃ t2, s = '0' :: t2 := by
          cases s with
          | nil => exact absurd rfl htnil
          | cons a t2 => rw [peekc_cons] at hzero; exact ⟨t2, by rw [hzero]⟩
        simp only [List.tail_cons] at h
        obtain ⟨fp, ep, heq, hfp, hep⟩ := fracExpG_shape h
        exact ⟨[], ['0'], fp, ep, by rw [heq]; rfl, Or.inl rfl, Or.inl rfl, hfp, hep⟩
      · rw [if_neg hzero] at h
        obtain ⟨hd1, hd2⟩ := Bool.and_eq_true_iff.mp h
        obtain ⟨d, t2, rfl⟩ : ∃ d t2, s = d :: t2 := by
          cases s with
          | nil => exact absurd rfl htnil
          | cons d t2 => exact ⟨d, t2, rfl⟩
        rw [peekc_cons] at hd1 hzero
        simp only [List.tail_cons] at h hd2
        obtain ⟨fp, ep, heq, hfp, hep⟩ := fracExpG_shape hd2
        refine ⟨[], d :: t2.takeWhile isdigitB, fp, ep, ?_, Or.inl rfl, ?_, hfp, hep⟩
        · have h2 : t2 = t2.takeWhile isdigitB ++ (fp ++ ep) := by
            conv_lhs => rw [← List.takeWhile_append_dropWhile isdigitB t2, heq]
          rw [List.nil_append, List.cons_append]
          exact congrArg (fun x => d :: x) h2
        · exact Or.inr ⟨d, t2.takeWhile isdigitB, rfl, hd1, hzero,
            fun x hx => List.mem_takeWhile_imp hx⟩

theorem hex_not_space {c : Char} (h : ishexB c = true) : isspaceB c = false := by
  by_contra hc
  have hc2 : isspaceB c = true := by
    cases hcc : isspaceB c with
    | false => exact absurd hcc hc
    | true => rfl
  simp only [isspaceB, Bool.or_eq_true, decide_eq_true_eq] at hc2
  rcases hc2 with (((((rfl | rfl) | rfl) | rfl) | rfl) | rfl) <;>
    exact absurd h (by decide)

theorem ishexB_ne_minus {c : Char} (h : ishexB c = true) : c ≠ '-' := by
  intro heq
  rw [heq] at h
  exact absurd h (by decide)

theorem ishexB_ne_plus {c : Char} (h : ishexB c = true) : c ≠ '+' := by
  intro heq
  rw [heq] at h
  exact absurd h (by decide)

theorem ishexB_ne_x {c : Char} (h : ishexB c = true) : c ≠ 'x' ∧ c ≠ 'X' := by
  constructor <;> (intro heq; rw [heq] at h; exact absurd h (by decide))

theorem stoiHex_hex4 {h1 h2 h3 h4 : Char} (hx1 : ishexB h1 = true) (hx2 : ishexB h2 = true)
    (hx3 : ishexB h3 = true) (hx4 : ishexB h4 = true) :
    stoiHex [h1, h2, h3, h4] =
      some (Int.ofNat (List.foldl (fun a c => 16 * a + hexDigitVal c) 0 [h1, h2, h3, h4])) := by
  rw [stoiHex]
  have hdw : List.dropWhile isspaceB [h1, h2, h3, h4] = [h1, h2, h3, h4] := by
    rw [List.dropWhile_cons, if_neg (by rw [hex_not_space hx1]; exact Bool.false_ne_true)]
  rw [hdw]
  simp only [peekc_cons, List.tail_cons, if_neg (ishexB_ne_minus hx1),
    if_neg (ishexB_ne_plus hx1)]
  rw [if_neg (show ¬(h1 = '0' ∧ (h2 = 'x' ∨ h2 = 'X') ∧ ishexB h3 = true) by
    intro hcon
    rcases hcon.2.1 with hh | hh
    · exact (ishexB_ne_x hx2).1 hh
    · exact (ishexB_ne_x hx2).2 hh)]
  have htw : List.takeWhile ishexB [h1, h2, h3, h4] = [h1, h2, h3, h4] := by
    rw [List.takeWhile_cons, if_pos hx1, List.takeWhile_cons, if_pos hx2,
      List.takeWhile_cons, if_pos hx3, List.takeWhile_cons, if_pos hx4]
    rfl
  rw [htw]
  simp

theorem stoiHex_first_hex {h1 : Char} (h2 h3 h4 : Char) (hx1 : ishexB h1 = true) :
    ∃ cp : Int, stoiHex [h1, h2, h3, h4] = some cp := by
  rw [stoiHex]
  have hdw : List.dropWhile isspaceB [h1, h2, h3, h4] = [h1, h2, h3, h4] := by
    rw [List.dropWhile_cons, if_neg (by rw [hex_not_space hx1]; exact Bool.false_ne_true)]
  rw [hdw]
  simp only [peekc_cons, List.tail_cons, if_neg (ishexB_ne_minus hx1),
    if_neg (ishexB_ne_plus hx1)]
  by_cases hpre : h1 = '0' ∧ (h2 = 'x' ∨ h2 = 'X') ∧ ishexB h3 = true
  · rw [if_pos hpre]
    rw [List.takeWhile_cons, if_pos hpre.2.2]
    simp
  · rw [if_neg hpre]
    rw [List.takeWhile_cons, if_pos hx1]
    simp

theorem psl_step_quote (t : List Char) (pos : Nat) :
    psl_step ('"' :: t) pos = .close t (pos + 1) := rfl

theorem psl_step_plain {c : Char} (t : List Char) (pos : Nat)
    (hq : c ≠ '"') (hbs : c ≠ '\\') :
    psl_step (c :: t) pos = .push c t (pos + 1) := by
  show (if c = '"' then PslStep.close t (pos + 1)
    else if c = '\\' then
      match t with
      | [] => .fail ⟨"Unterminated string", pos + 1⟩
      | e :: t1 => psl_escape e t1 pos
    else .push c t (pos + 1)) = .push c t (pos + 1)
  rw [if_neg hq, if_neg hbs]

theorem parse_string_loop_succ (fuel : Nat) (rem : List Char) (pos : Nat)
    (acc : List Char) :
    parse_string_loop (fuel + 1) rem pos acc =
      match psl_step rem pos with
      | .close t npos => .ok (acc, t, npos)
      | .push c t npos => parse_string_loop fuel t npos (acc ++ [c])
      | .fail e => .error e := by
  rw [parse_string_loop]

theorem psl_verbatim {k : List Char} (rest : List Char) (pos : Nat) (acc : List Char)
    (fuel : Nat) (hk : ∀ c ∈ k, c ≠ '"' ∧ c ≠ '\\') (hf : k.length + 1 ≤ fuel) :
    parse_string_loop fuel (k ++ ('"' :: rest)) pos acc =
      .ok (acc ++ k, rest, pos + k.length + 1) := by
  induction k generalizing pos acc fuel with
  | nil =>
    obtain ⟨f, rfl⟩ : ∃ f, fuel = f + 1 := ⟨fuel - 1, by omega⟩
    rw [List.nil_append, parse_string_loop_succ, psl_step_quote]
    simp
  | cons c t ih =>
    obtain ⟨f, rfl⟩ : ∃ f, fuel = f + 1 := ⟨fuel - 1, by omega⟩
    obtain ⟨hq, hbs⟩ := hk c (List.mem_cons_self c t)
    rw [List.cons_append, parse_string_loop_succ, psl_step_plain _ _ hq hbs]
    show parse_string_loop f (t ++ '"' :: rest) (pos + 1) (acc ++ [c]) = _
    rw [ih (pos + 1) (acc ++ [c]) f (fun d hd => hk d (List.mem_cons_of_mem c hd))
        (by simp at hf; omega)]
    rw [List.append_assoc, List.singleton_append, List.length_cons]
    have hpn : pos + 1 + t.length + 1 = pos + (t.length + 1) + 1 := by omega
    rw [hpn]

theorem ishexB_hexChar {d : Nat} (h : d < 16) : ishexB (hexChar d) = true := by
  interval_cases d <;> decide

theorem hexDigitVal_hexChar {d : Nat} (h : d < 16) : hexDigitVal (hexChar d) = d := by
  interval_cases d <;> decide

theorem psl_step_esc (c : Char) (rem : List Char) (pos : Nat) :
    psl_step (escChar c ++ rem) pos = .push c rem (pos + (escChar c).length) := by
  by_cases h1 : c = '"'
  · subst h1; rfl
  by_cases h2 : c = '\\'
  · subst h2; rfl
  by_cases h3 : c = '\x08'
  · subst h3; rfl
  by_cases h4 : c = '\x0c'
  · subst h4; rfl
  by_cases h5 : c = '\n'
  · subst h5; rfl
  by_cases h6 : c = '\r'
  · subst h6; rfl
  by_cases h7 : c = '\t'
  · subst h7; rfl
  by_cases h8 : c.toNat < 32
  · have hdiv : c.toNat / 16 < 16 := by omega
    have hmod : c.toNat % 16 < 16 := by omega
    have hesc : escChar c =
        ['\\', 'u', '0', '0', hexChar (c.toNat / 16), hexChar (c.toNat % 16)] := by
      rw [escChar, if_neg h1, if_neg h2, if_neg h3, if_neg h4, if_neg h5, if_neg h6,
        if_neg h7, if_pos h8]
    rw [hesc]
    show (if 4 ≤ ('0' :: '0' :: hexChar (c.toNat / 16) :: hexChar (c.toNat % 16) ::
          rem).length then
        match stoiHex (List.take 4 ('0' :: '0' :: hexChar (c.toNat / 16) ::
            hexChar (c.toNat % 16) :: rem)) with
        | none => PslStep.fail ⟨"Invalid unicode escape", pos + 2⟩
        | some cp =>
          PslStep.push (if cp < 128 then Char.ofNat ((cp % 256).toNat) else '?')
            (List.drop 4 ('0' :: '0' :: hexChar (c.toNat / 16) ::
              hexChar (c.toNat % 16) :: rem)) (pos + 6)
      else PslStep.fail ⟨"Invalid unicode escape", pos + 2⟩) = _
    rw [if_pos (show 4 ≤ ('0' :: '0' :: hexChar (c.toNat / 16) ::
      hexChar (c.toNat % 16) :: rem).length by simp)]
    rw [show List.take 4 ('0' :: '0' :: hexChar (c.toNat / 16) ::
      hexChar (c.toNat % 16) :: rem) =
      ['0', '0', hexChar (c.toNat / 16), hexChar (c.toNat % 16)] from rfl]
    rw [show List.drop 4 ('0' :: '0' :: hexChar (c.toNat / 16) ::
      hexChar (c.toNat % 16) :: rem) = rem from rfl]
    rw [stoiHex_hex4 (by decide) (by decide) (ishexB_hexChar hdiv) (ishexB_hexChar hmod)]
    have hv : List.foldl (fun a c => 16 * a + hexDigitVal c) 0
        ['0', '0', hexChar (c.toNat / 16), hexChar (c.toNat % 16)] = c.toNat := by
      simp only [List.foldl_cons, List.foldl_nil, hexDigitVal_hexChar hdiv,
        hexDigitVal_hexChar hmod]
      have h0 : hexDigitVal '0' = 0 := by decide
      rw [h0]
      omega
    rw [hv]
    show PslStep.push (if (Int.ofNat c.toNat) < 128 then
      Char.ofNat (((Int.ofNat c.toNat) % 256).toNat) else '?') rem (pos + 6) = _
    rw [if_pos (show (Int.ofNat c.toNat) < 128 by rw [Int.ofNat_eq_natCast]; omega)]
    rw [show ((Int.ofNat c.toNat) % 256).toNat = c.toNat by
      rw [Int.ofNat_eq_natCast]; omega]
    rw [charEq_of_toNat (toNat_ofNat_small c.toNat (by omega))]
    rfl
  · have hesc : escChar c = [c] := by
      rw [escChar, if_neg h1, if_neg h2, if_neg h3, if_neg h4, if_neg h5, if_neg h6,
        if_neg h7, if_neg h8]
    rw [hesc, List.cons_append, List.nil_append, psl_step_plain rem pos h1 h2]
    rfl

theorem psl_escaped {s : List Char} (rest : List Char) (pos : Nat) (acc : List Char)
    (fuel : Nat) (hf : s.length + 1 ≤ fuel) :
    parse_string_loop fuel ((s.map escChar).flatten ++ ('"' :: rest)) pos acc =
      .ok (acc ++ s, rest, pos + ((s.map escChar).flatten).length + 1) := by
  induction s generalizing pos acc fuel with
  | nil =>
    obtain ⟨f, rfl⟩ : ∃ f, fuel = f + 1 := ⟨fuel - 1, by omega⟩
    rw [List.map_nil, List.flatten_nil, List.nil_append, parse_string_loop_succ,
      psl_step_quote]
    simp
  | cons c t ih =>
    obtain ⟨f, rfl⟩ : ∃ f, fuel = f + 1 := ⟨fuel - 1, by omega⟩
    rw [List.map_cons, List.flatten_cons, List.append_assoc, parse_string_loop_succ,
      psl_step_esc]
    show parse_string_loop f ((t.map escChar).flatten ++ '"' :: rest)
      (pos + (escChar c).length) (acc ++ [c]) = _
    rw [ih (pos + (escChar c).length) (acc ++ [c]) f (by simp at hf; omega)]
    rw [List.append_assoc, List.singleton_append, List.length_append]
    have hpn : pos + (escChar c).length + ((t.map escChar).flatten).length + 1
        = pos + ((escChar c).length + ((t.map escChar).flatten).length) + 1 := by omega
    rw [hpn]


theorem stringify_arr_false (es : List Json) (ind : Nat) :
    stringify (.arr es) false ind = '[' :: (serElems es false ind ++ [']']) := by
  rw [stringify]
  simp [mkIndent]

theorem stringify_obj_false (l : List (List Char × Json)) (ind : Nat) :
    stringify (.obj l) false ind = '\x7b' :: (serMembers l false ind ++ ['\x7d']) := by
  rw [stringify]
  simp [mkIndent]

theorem serElems_cons_false (e : Json) (r : List Json) (ind : Nat) :
    serElems (e :: r) false ind =
      stringify e false (ind + 1) ++
        ((if r.isEmpty then [] else [',']) ++ serElems r false ind) := by
  rw [serElems]
  simp [mkIndent]

theorem serMembers_cons_false (k : List Char) (v : Json)
    (r : List (List Char × Json)) (ind : Nat) :
    serMembers ((k, v) :: r) false ind =
      ('"' :: k) ++ ('"' :: ':' :: ' ' :: stringify v false (ind + 1)) ++
        ((if r.isEmpty then [] else [',']) ++ serMembers r false ind) := by
  rw [serMembers]
  simp [mkIndent]

theorem escChar_len_pos (c : Char) : 1 ≤ (escChar c).length := by
  rw [escChar]
  repeat' split
  all_goals simp

theorem flatten_esc_len (s : List Char) :
    s.length ≤ ((s.map escChar).flatten).length := by
  induction s with
  | nil => simp
  | cons c t ih =>
    rw [List.map_cons, List.flatten_cons, List.length_append, List.length_cons]
    have := escChar_len_pos c
    omega

theorem parse_string_quote (t : List Char) (pos : Nat) :
    parse_string ('"' :: t) pos = parse_string_loop (t.length + 1) t (pos + 1) [] := rfl

theorem parse_string_ser (s rest : List Char) (pos : Nat) :
    parse_string ((('"' :: (s.map escChar).flatten) ++ ['"']) ++ rest) pos =
      .ok (s, rest, pos + ((s.map escChar).flatten).length + 2) := by
  have hs : (('"' :: (s.map escChar).flatten) ++ ['"']) ++ rest =
      '"' :: ((s.map escChar).flatten ++ ('"' :: rest)) := by simp
  rw [hs, parse_string_quote]
  have hlen : ((s.map escChar).flatten ++ ('"' :: rest)).length =
      ((s.map escChar).flatten).length + rest.length + 1 := by
    rw [List.length_append, List.length_cons]
    omega
  rw [hlen]
  rw [psl_escaped rest (pos + 1) [] (((s.map escChar).flatten).length + rest.length + 1 + 1)
    (by have := flatten_esc_len s; omega)]
  rw [List.nil_append]
  have hpn : pos + 1 + ((s.map escChar).flatten).length + 1 =
      pos + ((s.map escChar).flatten).length + 2 := by omega
  rw [hpn]

theorem serHead {v : Json} (hv : RTok v) (ind : Nat) :
    ∃ c t, stringify v false ind = c :: t ∧ isspaceB c = false ∧ c ≠ ']' := by
  cases hv with
  | null =>
    refine ⟨'n', "ull".toList, ?_, by decide, by decide⟩
    rw [stringify]
    decide
  | bool b =>
    cases b with
    | false =>
      refine ⟨'f', "alse".toList, ?_, by decide, by decide⟩
      rw [stringify]
      decide
    | true =>
      refine ⟨'t', "rue".toList, ?_, by decide, by decide⟩
      rw [stringify]
      decide
  | number q h1 h2 =>
    rcases intChars_split q.num with ⟨sgn, hsgn, hic⟩
    obtain ⟨d, dt, hnc, hdig⟩ := natChars_head q.num.natAbs
    rcases hsgn with rfl | rfl
    · refine ⟨d, dt, ?_, digit_not_space hdig, ?_⟩
      · rw [stringify, numChars_int h1, hic, List.nil_append, hnc]
      · intro heq
        rw [heq] at hdig
        exact absurd hdig (by decide)
    · refine ⟨'-', natChars q.num.natAbs, ?_, by decide, by decide⟩
      rw [stringify, numChars_int h1, hic]
      rfl
  | str s =>
    refine ⟨'"', (s.map escChar).flatten ++ ['"'], ?_, by decide, by decide⟩
    rw [stringify]
    rfl
  | arr es h =>
    exact ⟨'[', serElems es false ind ++ [']'], stringify_arr_false es ind,
      by decide, by decide⟩
  | obj l h1 h2 h3 =>
    exact ⟨'\x7b', serMembers l false ind ++ ['\x7d'], stringify_obj_false l ind,
      by decide, by decide⟩

theorem rt_null (rest : List Char) (pos f : Nat) :
    parse_value (f + 1) (['n', 'u', 'l', 'l'] ++ rest) pos =
      .ok (.null, rest, pos + 4) := by
  show parse_value (f + 1) ('n' :: 'u' :: 'l' :: 'l' :: rest) pos = _
  rw [parse_value, skip_whitespace_not_space _ pos (by decide)]
  dsimp only
  rw [if_pos (show ('n' : Char) = 'n' from rfl)]
  rw [parse_null,
    if_pos (show List.take 4 ('n' :: 'u' :: 'l' :: 'l' :: rest) = "null".toList from rfl)]
  rfl

theorem rt_true (rest : List Char) (pos f : Nat) :
    parse_value (f + 1) (['t', 'r', 'u', 'e'] ++ rest) pos =
      .ok (.bool true, rest, pos + 4) := by
  show parse_value (f + 1) ('t' :: 'r' :: 'u' :: 'e' :: rest) pos = _
  rw [parse_value, skip_whitespace_not_space _ pos (by decide)]
  dsimp only
  rw [if_neg (show ('t' : Char) ≠ 'n' by decide),
    if_pos (show ('t' : Char) = 't' ∨ ('t' : Char) = 'f' from Or.inl rfl)]
  rw [parse_bool,
    if_pos (show List.take 4 ('t' :: 'r' :: 'u' :: 'e' :: rest) = "true".toList from rfl)]
  rfl

theorem rt_false (rest : List Char) (pos f : Nat) :
    parse_value (f + 1) (['f', 'a', 'l', 's', 'e'] ++ rest) pos =
      .ok (.bool false, rest, pos + 5) := by
  show parse_value (f + 1) ('f' :: 'a' :: 'l' :: 's' :: 'e' :: rest) pos = _
  rw [parse_value, skip_whitespace_not_space _ pos (by decide)]
  dsimp only
  rw [if_neg (show ('f' : Char) ≠ 'n' by decide),
    if_pos (show ('f' : Char) = 't' ∨ ('f' : Char) = 'f' from Or.inr rfl)]
  rw [parse_bool]
  rw [if_neg (show List.take 4 ('f' :: 'a' :: 'l' :: 's' :: 'e' :: rest) ≠ "true".toList by
    intro h
    rw [show List.take 4 ('f' :: 'a' :: 'l' :: 's' :: 'e' :: rest) = ['f', 'a', 'l', 's']
      from rfl] at h
    exact absurd h (by decide))]
  rw [if_pos (show List.take 5 ('f' :: 'a' :: 'l' :: 's' :: 'e' :: rest) = "false".toList
    from rfl)]
  rfl

theorem rt_str (s rest : List Char) (ind pos f : Nat) :
    parse_value (f + 1) (stringify (.str s) false ind ++ rest) pos =
      .ok (.str s, rest, pos + (stringify (.str s) false ind).length) := by
  have hser : stringify (.str s) false ind = ('"' :: (s.map escChar).flatten) ++ ['"'] := by
    rw [stringify]
  have hstream : (('"' :: (s.map escChar).flatten) ++ ['"']) ++ rest =
      '"' :: ((s.map escChar).flatten ++ ('"' :: rest)) := by simp
  have hlen : (('"' :: (s.map escChar).flatten) ++ ['"']).length =
      ((s.map escChar).flatten).length + 2 := by
    rw [List.length_append, List.length_cons]
    simp
  rw [hser, hlen, hstream]
  rw [parse_value, skip_whitespace_not_space _ pos (by decide)]
  dsimp only
  rw [if_neg (show ('"' : Char) ≠ 'n' by decide),
    if_neg (show ¬(('"' : Char) = 't' ∨ ('"' : Char) = 'f') by decide),
    if_pos (show ('"' : Char) = '"' from rfl)]
  rw [← hstream, parse_string_ser s rest pos]
  show Except.ok (Json.str s, rest, pos + ((s.map escChar).flatten).length + 2) = _
  have hpn : pos + ((s.map escChar).flatten).length + 2 =
      pos + (((s.map escChar).flatten).length + 2) := by omega
  rw [hpn]

theorem numRestOk_of_tok {rest : List Char} (hrest : RestOkTok rest) :
    NumRestOk [] [] rest := by
  refine ⟨?_, fun _ => ⟨?_, ?_⟩, fun _ _ => ?_⟩ <;>
    (rcases hrest with h | h | h | h <;> rw [h] <;> decide)

theorem rt_num {q : Rat} (h1 : q.den = 1) (rest : List Char) (ind pos f : Nat)
    (hrest : RestOkTok rest) :
    parse_value (f + 1) (stringify (.number q) false ind ++ rest) pos =
      .ok (.number q, rest, pos + (stringify (.number q) false ind).length) := by
  have hser : stringify (.number q) false ind = intChars q.num := by
    rw [stringify, numChars_int h1]
  have hq : stodModel (intChars q.num) = q := by
    rw [stodModel_intChars]
    exact (Rat.den_eq_one_iff q).mp h1
  have hnr : NumRestOk [] [] rest := numRestOk_of_tok hrest
  rw [hser]
  rcases intChars_split q.num with ⟨sgn, hsgn, hic⟩
  obtain ⟨d, dt, hnc, hdig⟩ := natChars_head q.num.natAbs
  rcases hsgn with rfl | rfl
  · rw [List.nil_append] at hic
    rw [hic, hnc, List.cons_append,
      parse_value_number pos f (digit_not_space hdig) (Or.inr hdig),
      ← List.cons_append, ← hnc]
    have htok := parse_number_token rest pos (Or.inl rfl)
      (intPartOk_natChars q.num.natAbs) (Or.inl rfl) (Or.inl rfl) hnr
    simp only [List.nil_append, List.append_nil, List.length_nil, Nat.add_zero] at htok
    rw [htok]
    rw [show stodModel (natChars q.num.natAbs) = q by rw [← hic]; exact hq]
  · have hic2 : intChars q.num = '-' :: natChars q.num.natAbs := by
      rw [hic]
      rfl
    rw [hic2, List.cons_append,
      parse_value_number pos f (by decide) (Or.inl rfl)]
    have htok := parse_number_token rest pos (Or.inr rfl)
      (intPartOk_natChars q.num.natAbs) (Or.inl rfl) (Or.inl rfl) hnr
    simp only [List.nil_append, List.append_nil, List.cons_append, List.length_nil,
      List.length_cons, Nat.add_zero, Nat.zero_add] at htok
    rw [htok]
    rw [show stodModel ('-' :: natChars q.num.natAbs) = q by rw [← hic2]; exact hq]
    rw [List.length_cons]
    have hpn : pos + 1 + (natChars q.num.natAbs).length =
        pos + ((natChars q.num.natAbs).length + 1) := by omega
    rw [hpn]

theorem serElems_nil (ind : Nat) : serElems [] false ind = [] := by
  rw [serElems]

theorem serMembers_nil (ind : Nat) : serMembers [] false ind = [] := by
  rw [serMembers]

theorem serElems_single (e : Json) (ind : Nat) :
    serElems [e] false ind = stringify e false (ind + 1) := by
  rw [serElems_cons_false, serElems_nil]
  simp

theorem serElems_cons2_false (e e2 : Json) (r : List Json) (ind : Nat) :
    serElems (e :: e2 :: r) false ind =
      stringify e false (ind + 1) ++ (',' :: serElems (e2 :: r) false ind) := by
  rw [serElems_cons_false]
  simp

theorem serMembers_single (k : List Char) (v : Json) (ind : Nat) :
    serMembers [(k, v)] false ind =
      ('"' :: k) ++ ('"' :: ':' :: ' ' :: stringify v false (ind + 1)) := by
  rw [serMembers_cons_false, serMembers_nil]
  simp

theorem serMembers_cons2_false (k : List Char) (v : Json) (p2 : List Char × Json)
    (r : List (List Char × Json)) (ind : Nat) :
    serMembers ((k, v) :: p2 :: r) false ind =
      ('"' :: k) ++ ('"' :: ':' :: ' ' :: stringify v false (ind + 1)) ++
        (',' :: serMembers (p2 :: r) false ind) := by
  rw [serMembers_cons_false]
  simp

theorem rt_elems (ind : Nat) (rest : List Char) (es : List Json) :
    (∀ e ∈ es, RTok e) →
    (∀ e ∈ es, ∀ (rest2 : List Char) (pos2 fuel2 : Nat), RestOkTok rest2 →
      fuelB e ≤ fuel2 →
      parse_value fuel2 (stringify e false (ind + 1) ++ rest2) pos2 =
        .ok (e, rest2, pos2 + (stringify e false (ind + 1)).length)) →
    es ≠ [] →
    ∀ (acc : List Json) (pos fuel : Nat), fuelE es ≤ fuel →
    parse_elems fuel (serElems es false ind ++ (']' :: rest)) pos acc =
      .ok (.arr (acc ++ es), rest, pos + (serElems es false ind).length + 1) := by
  induction es with
  | nil => intro _ _ hne; exact absurd rfl hne
  | cons e es2 ih =>
    intro hrt hptw _ acc pos fuel hfuel
    obtain ⟨f, rfl⟩ : ∃ f, fuel = f + 1 := ⟨fuel - 1, by rw [fuelE] at hfuel; omega⟩
    have hfe : fuelB e ≤ f := by rw [fuelE] at hfuel; omega
    cases es2 with
    | nil =>
      rw [serElems_single, parse_elems,
        hptw e (List.mem_cons_self e []) (']' :: rest) pos f
          (Or.inr (Or.inr (Or.inl rfl))) hfe]
      dsimp only
      rw [skip_whitespace_not_space _ _ (by decide)]
      dsimp only
      rw [peekc_cons, if_pos (show (']' : Char) = ']' from rfl)]
      rfl
    | cons e2 es3 =>
      rw [serElems_cons2_false, List.append_assoc, List.cons_append, parse_elems,
        hptw e (List.mem_cons_self e _)
          (',' :: (serElems (e2 :: es3) false ind ++ (']' :: rest))) pos f
          (Or.inr (Or.inl rfl)) hfe]
      dsimp only
      rw [skip_whitespace_not_space _ _ (by decide)]
      dsimp only
      rw [peekc_cons, if_neg (show (',' : Char) ≠ ']' by decide),
        if_pos (show (',' : Char) = ',' from rfl)]
      dsimp only [List.tail_cons]
      obtain ⟨c2, t2, hs2, hsp2, _⟩ := serHead (hrt e2 (by simp)) (ind + 1)
      have hhead : serElems (e2 :: es3) false ind ++ (']' :: rest) =
          c2 :: (t2 ++ ((if es3.isEmpty then [] else [',']) ++ serElems es3 false ind) ++
            (']' :: rest)) := by
        rw [serElems_cons_false, hs2]
        simp
      rw [hhead, skip_whitespace_not_space _ _ hsp2, ← hhead]
      dsimp only
      rw [ih (fun x hx => hrt x (List.mem_cons_of_mem e hx))
        (fun x hx => hptw x (List.mem_cons_of_mem e hx)) (by simp) (acc ++ [e])
        (pos + (stringify e false (ind + 1)).length + 1) f
        (by rw [fuelE] at hfuel; omega)]
      rw [List.append_assoc, List.singleton_append]
      refine congrArg Except.ok (Prod.ext rfl (Prod.ext rfl ?_))
      simp only [List.length_append, List.length_cons]
      omega

theorem rt_members (ind : Nat) (rest : List Char) (l : List (List Char × Json)) :
    (∀ p ∈ l, RTok p.2) →
    (∀ p ∈ l, ∀ c ∈ p.1, c ≠ '"' ∧ c ≠ '\\') →
    SortedKeys l →
    (∀ p ∈ l, ∀ (rest2 : List Char) (pos2 fuel2 : Nat), RestOkTok rest2 →
      fuelB p.2 ≤ fuel2 →
      parse_value fuel2 (stringify p.2 false (ind + 1) ++ rest2) pos2 =
        .ok (p.2, rest2, pos2 + (stringify p.2 false (ind + 1)).length)) →
    l ≠ [] →
    ∀ (acc : List (List Char × Json)) (pos fuel : Nat),
      (∀ p ∈ acc, ∀ q ∈ l, keyLt p.1 q.1 = true) → fuelM l ≤ fuel →
    parse_members fuel (serMembers l false ind ++ ('\x7d' :: rest)) pos acc =
      .ok (.obj (acc ++ l), rest, pos + (serMembers l false ind).length + 1) := by
  induction l with
  | nil => intro _ _ _ _ hne; exact absurd rfl hne
  | cons p l2 ih =>
    obtain ⟨k, v⟩ := p
    intro hrt hkeys hsort hptw _ acc pos fuel hacc hfuel
    obtain ⟨f, rfl⟩ : ∃ f, fuel = f + 1 := ⟨fuel - 1, by rw [fuelM] at hfuel; omega⟩
    have hfv : fuelB v ≤ f := by rw [fuelM] at hfuel; omega
    have hkv : ∀ c ∈ k, c ≠ '"' ∧ c ≠ '\\' := hkeys (k, v) (List.mem_cons_self _ _)
    obtain ⟨cv, tv, hsv, hspv, _⟩ := serHead (hrt (k, v) (List.mem_cons_self _ _)) (ind + 1)
    cases l2 with
    | nil =>
      rw [serMembers_single]
      have hstream : (('"' :: k) ++ ('"' :: ':' :: ' ' :: stringify v false (ind + 1))) ++
          ('\x7d' :: rest) =
          '"' :: (k ++ ('"' :: (':' :: ' ' ::
            (stringify v false (ind + 1) ++ ('\x7d' :: rest))))) := by
        simp
      rw [hstream, parse_members]
      dsimp only
      rw [skip_whitespace_not_space _ _ (by decide)]
      dsimp only
      rw [peekc_cons, if_pos (show ('"' : Char) = '"' from rfl)]
      rw [parse_string_quote]
      rw [psl_verbatim (':' :: ' ' :: (stringify v false (ind + 1) ++ ('\x7d' :: rest)))
        (pos + 1) []
        ((k ++ ('"' :: (':' :: ' ' :: (stringify v false (ind + 1) ++
          ('\x7d' :: rest))))).length + 1)
        hkv (by rw [List.length_append]; omega)]
      dsimp only
      rw [List.nil_append]
      rw [skip_whitespace_not_space _ _ (by decide)]
      dsimp only
      rw [peekc_cons, if_pos (show (':' : Char) = ':' from rfl)]
      dsimp only [List.tail_cons]
      rw [skip_whitespace_space _ _ (by decide)]
      rw [hsv, List.cons_append, skip_whitespace_not_space _ _ hspv, ← List.cons_append,
        ← hsv]
      dsimp only
      rw [hptw (k, v) (List.mem_cons_self _ _) ('\x7d' :: rest) _ f
        (Or.inr (Or.inr (Or.inr rfl))) hfv]
      dsimp only
      rw [mapInsert_append v (fun x hx => hacc x hx (k, v) (List.mem_cons_self _ _))]
      rw [skip_whitespace_not_space _ _ (by decide)]
      dsimp only
      rw [peekc_cons, if_pos (show ('\x7d' : Char) = '\x7d' from rfl)]
      dsimp only [List.tail_cons]
      refine congrArg Except.ok (Prod.ext rfl (Prod.ext rfl ?_))
      simp only [List.length_append, List.length_cons]
      omega
    | cons p2 l3 =>
      rw [serMembers_cons2_false]
      have hstream : (('"' :: k) ++ ('"' :: ':' :: ' ' :: stringify v false (ind + 1)) ++
          (',' :: serMembers (p2 :: l3) false ind)) ++ ('\x7d' :: rest) =
          '"' :: (k ++ ('"' :: (':' :: ' ' :: (stringify v false (ind + 1) ++
            (',' :: (serMembers (p2 :: l3) false ind ++ ('\x7d' :: rest))))))) := by
        simp
      rw [hstream, parse_members]
      dsimp only
      rw [skip_whitespace_not_space _ _ (by decide)]
      dsimp only
      rw [peekc_cons, if_pos (show ('"' : Char) = '"' from rfl)]
      rw [parse_string_quote]
      rw [psl_verbatim (':' :: ' ' :: (stringify v false (ind + 1) ++
          (',' :: (serMembers (p2 :: l3) false ind ++ ('\x7d' :: rest))))) (pos + 1) []
        ((k ++ ('"' :: (':' :: ' ' :: (stringify v false (ind + 1) ++
          (',' :: (serMembers (p2 :: l3) false ind ++ ('\x7d' :: rest))))))).length + 1)
        hkv (by rw [List.length_append]; omega)]
      dsimp only
      rw [List.nil_append]
      rw [skip_whitespace_not_space _ _ (by decide)]
      dsimp only
      rw [peekc_cons, if_pos (show (':' : Char) = ':' from rfl)]
      dsimp only [List.tail_cons]
      rw [skip_whitespace_space _ _ (by decide)]
      rw [hsv, List.cons_append, skip_whitespace_not_space _ _ hspv, ← List.cons_append,
        ← hsv]
      dsimp only
      rw [hptw (k, v) (List.mem_cons_self _ _)
        (',' :: (serMembers (p2 :: l3) false ind ++ ('\x7d' :: rest))) _ f
        (Or.inr (Or.inl rfl)) hfv]
      dsimp only
      rw [mapInsert_append v (fun x hx => hacc x hx (k, v) (List.mem_cons_self _ _))]
      rw [skip_whitespace_not_space _ _ (by decide)]
      dsimp only
      rw [peekc_cons, if_neg (show (',' : Char) ≠ '\x7d' by decide),
        if_pos (show (',' : Char) = ',' from rfl)]
      dsimp only [List.tail_cons]
      have hacc2 : ∀ x ∈ acc ++ [(k, v)], ∀ q ∈ p2 :: l3, keyLt x.1 q.1 = true := by
        intro x hx q hq
        rcases List.mem_append.mp hx with h | h
        · exact hacc x h q (List.mem_cons_of_mem _ hq)
        · rcases List.mem_singleton.mp h with rfl
          exact (List.pairwise_cons.mp hsort).1 q hq
      rw [ih (fun x hx => hrt x (List.mem_cons_of_mem _ hx))
        (fun x hx => hkeys x (List.mem_cons_of_mem _ hx))
        ((List.pairwise_cons.mp hsort).2)
        (fun x hx => hptw x (List.mem_cons_of_mem _ hx)) (by simp)
        (acc ++ [(k, v)]) _ f hacc2 (by rw [fuelM] at hfuel; omega)]
      rw [List.append_assoc, List.singleton_append]
      refine congrArg Except.ok (Prod.ext rfl (Prod.ext rfl ?_))
      simp only [List.length_append, List.length_cons]
      omega

theorem serLen_pos {v : Json} (hv : RTok v) (ind : Nat) :
    1 ≤ (stringify v false ind).length := by
  obtain ⟨c, t, h, _, _⟩ := serHead hv ind
  rw [h]
  simp

theorem rt_value {v : Json} (hv : RTok v) :
    ∀ (ind : Nat) (rest : List Char) (pos fuel : Nat), RestOkTok rest →
      fuelB v ≤ fuel →
      parse_value fuel (stringify v false ind ++ rest) pos =
        .ok (v, rest, pos + (stringify v false ind).length) := by
  induction hv with
  | null =>
    intro ind rest pos fuel _ hfuel
    obtain ⟨f, rfl⟩ : ∃ f, fuel = f + 1 := ⟨fuel - 1, by rw [fuelB] at hfuel; omega⟩
    have hser : stringify .null false ind = ['n', 'u', 'l', 'l'] := by
      rw [stringify]
      decide
    rw [hser, rt_null]
    rfl
  | bool b =>
    intro ind rest pos fuel _ hfuel
    obtain ⟨f, rfl⟩ : ∃ f, fuel = f + 1 := ⟨fuel - 1, by rw [fuelB] at hfuel; omega⟩
    cases b with
    | true =>
      have hser : stringify (.bool true) false ind = ['t', 'r', 'u', 'e'] := by
        rw [stringify]
        decide
      rw [hser, rt_true]
      rfl
    | false =>
      have hser : stringify (.bool false) false ind = ['f', 'a', 'l', 's', 'e'] := by
        rw [stringify]
        decide
      rw [hser, rt_false]
      rfl
  | number q h1 h2 =>
    intro ind rest pos fuel hrest hfuel
    obtain ⟨f, rfl⟩ : ∃ f, fuel = f + 1 := ⟨fuel - 1, by rw [fuelB] at hfuel; omega⟩
    exact rt_num h1 rest ind pos f hrest
  | str s =>
    intro ind rest pos fuel _ hfuel
    obtain ⟨f, rfl⟩ : ∃ f, fuel = f + 1 := ⟨fuel - 1, by rw [fuelB] at hfuel; omega⟩
    exact rt_str s rest ind pos f
  | arr es hall ih =>
    intro ind rest pos fuel hrest hfuel
    obtain ⟨f, rfl⟩ : ∃ f, fuel = f + 1 := ⟨fuel - 1, by rw [fuelB] at hfuel; omega⟩
    obtain ⟨f2, rfl⟩ : ∃ f2, f = f2 + 1 := ⟨f - 1, by rw [fuelB] at hfuel; omega⟩
    rw [stringify_arr_false]
    have hstream : ('[' :: (serElems es false ind ++ [']'])) ++ rest =
        '[' :: (serElems es false ind ++ (']' :: rest)) := by simp
    rw [hstream]
    rw [parse_value, skip_whitespace_not_space _ pos (by decide)]
    dsimp only
    rw [if_neg (show ('[' : Char) ≠ 'n' by decide),
      if_neg (show ¬(('[' : Char) = 't' ∨ ('[' : Char) = 'f') by decide),
      if_neg (show ('[' : Char) ≠ '"' by decide),
      if_pos (show ('[' : Char) = '[' from rfl)]
    rw [parse_array]
    dsimp only
    rw [if_pos (show ('[' : Char) = '[' from rfl)]
    cases es with
    | nil =>
      rw [serElems_nil, List.nil_append]
      rw [skip_whitespace_not_space _ _ (by decide)]
      dsimp only
      rw [peekc_cons, if_pos (show (']' : Char) = ']' from rfl)]
      dsimp only [List.tail_cons]
      refine congrArg Except.ok (Prod.ext rfl (Prod.ext rfl ?_))
      simp only [List.nil_append, List.length_cons, List.length_nil]
    | cons e es2 =>
      obtain ⟨c1, t1, hs1, hsp1, hne1⟩ := serHead (hall e (List.mem_cons_self _ _)) (ind + 1)
      have hhead : serElems (e :: es2) false ind ++ (']' :: rest) =
          c1 :: (t1 ++ ((if es2.isEmpty then [] else [',']) ++ serElems es2 false ind) ++
            (']' :: rest)) := by
        rw [serElems_cons_false, hs1]
        simp
      rw [hhead, skip_whitespace_not_space _ _ hsp1]
      dsimp only
      rw [peekc_cons, if_neg hne1, ← hhead]
      rw [rt_elems ind rest (e :: es2) hall
        (fun x hx rest2 pos2 fuel2 hh1 hh2 => ih x hx (ind + 1) rest2 pos2 fuel2 hh1 hh2)
        (by simp) [] (pos + 1) f2 (by rw [fuelB] at hfuel; omega)]
      rw [List.nil_append]
      refine congrArg Except.ok (Prod.ext rfl (Prod.ext rfl ?_))
      simp only [List.length_cons, List.length_append, List.length_nil]
      omega
  | obj l hsort hkeys hall ih =>
    intro ind rest pos fuel hrest hfuel
    obtain ⟨f, rfl⟩ : ∃ f, fuel = f + 1 := ⟨fuel - 1, by rw [fuelB] at hfuel; omega⟩
    obtain ⟨f2, rfl⟩ : ∃ f2, f = f2 + 1 := ⟨f - 1, by rw [fuelB] at hfuel; omega⟩
    rw [stringify_obj_false]
    have hstream : ('\x7b' :: (serMembers l false ind ++ ['\x7d'])) ++ rest =
        '\x7b' :: (serMembers l false ind ++ ('\x7d' :: rest)) := by simp
    rw [hstream]
    rw [parse_value, skip_whitespace_not_space _ pos (by decide)]
    dsimp only
    rw [if_neg (show ('\x7b' : Char) ≠ 'n' by decide),
      if_neg (show ¬(('\x7b' : Char) = 't' ∨ ('\x7b' : Char) = 'f') by decide),
      if_neg (show ('\x7b' : Char) ≠ '"' by decide),
      if_neg (show ('\x7b' : Char) ≠ '[' by decide),
      if_pos (show ('\x7b' : Char) = '\x7b' from rfl)]
    rw [parse_object]
    dsimp only
    rw [if_pos (show ('\x7b' : Char) = '\x7b' from rfl)]
    cases l with
    | nil =>
      rw [serMembers_nil, List.nil_append]
      rw [skip_whitespace_not_space _ _ (by decide)]
      dsimp only
      rw [peekc_cons, if_pos (show ('\x7d' : Char) = '\x7d' from rfl)]
      dsimp only [List.tail_cons]
      refine congrArg Except.ok (Prod.ext rfl (Prod.ext rfl ?_))
      simp only [List.nil_append, List.length_cons, List.length_nil]
    | cons p l2 =>
      obtain ⟨k, v⟩ := p
      have hT : serMembers ((k, v) :: l2) false ind ++ ('\x7d' :: rest) =
          '"' :: (k ++ ('"' :: ':' :: ' ' :: (stringify v false (ind + 1) ++
            ((if l2.isEmpty then [] else [',']) ++ (serMembers l2 false ind ++
              ('\x7d' :: rest)))))) := by
        rw [serMembers_cons_false]
        simp
      rw [hT, skip_whitespace_not_space _ _ (by decide)]
      dsimp only
      rw [peekc_cons, if_neg (show ('"' : Char) ≠ '\x7d' by decide), ← hT]
      rw [rt_members ind rest ((k, v) :: l2) hall hkeys hsort
        (fun x hx rest2 pos2 fuel2 hh1 hh2 => ih x hx (ind + 1) rest2 pos2 fuel2 hh1 hh2)
        (by simp) [] (pos + 1) f2 (fun x hx => absurd hx (List.not_mem_nil x))
        (by rw [fuelB] at hfuel; omega)]
      rw [List.nil_append]
      refine congrArg Except.ok (Prod.ext rfl (Prod.ext rfl ?_))
      simp only [List.length_cons, List.length_append, List.length_nil]
      omega

theorem fuelE_le (ind : Nat) (es : List Json) :
    (∀ e ∈ es, fuelB e ≤ 3 * (stringify e false (ind + 1)).length) →
    fuelE es + 2 * es.length ≤ 3 * (serElems es false ind).length + 3 := by
  induction es with
  | nil =>
    intro _
    rw [fuelE, serElems_nil]
    simp
  | cons e r ih =>
    intro hb
    have h1 := hb e (by simp)
    cases r with
    | nil =>
      rw [fuelE, fuelE, serElems_single]
      simp only [List.length_cons, List.length_nil]
      omega
    | cons e2 r2 =>
      have h2 := ih (fun x hx => hb x (List.mem_cons_of_mem _ hx))
      rw [fuelE, serElems_cons2_false]
      simp only [List.length_append, List.length_cons] at h2 ⊢
      omega

theorem fuelM_le (ind : Nat) (l : List (List Char × Json)) :
    (∀ p ∈ l, fuelB p.2 ≤ 3 * (stringify p.2 false (ind + 1)).length) →
    fuelM l + 2 * l.length ≤ 3 * (serMembers l false ind).length + 3 := by
  induction l with
  | nil =>
    intro _
    rw [fuelM, serMembers_nil]
    simp
  | cons p r ih =>
    intro hb
    obtain ⟨k, v⟩ := p
    have h1 : fuelB v ≤ 3 * (stringify v false (ind + 1)).length := hb (k, v) (by simp)
    cases r with
    | nil =>
      rw [fuelM, fuelM, serMembers_single]
      simp only [List.length_append, List.length_cons, List.length_nil]
      omega
    | cons p2 r2 =>
      have h2 := ih (fun x hx => hb x (List.mem_cons_of_mem _ hx))
      rw [fuelM, serMembers_cons2_false]
      simp only [List.length_append, List.length_cons] at h2 ⊢
      omega

theorem fuelB_le {v : Json} (hv : RTok v) : ∀ ind : Nat,
    fuelB v ≤ 3 * (stringify v false ind).length := by
  induction hv with
  | null =>
    intro ind
    rw [fuelB]
    have := serLen_pos RTok.null ind
    omega
  | bool b =>
    intro ind
    rw [fuelB]
    have := serLen_pos (RTok.bool b) ind
    omega
  | number q h1 h2 =>
    intro ind
    rw [fuelB]
    have := serLen_pos (RTok.number q h1 h2) ind
    omega
  | str s =>
    intro ind
    rw [fuelB]
    have := serLen_pos (RTok.str s) ind
    omega
  | arr es hall ih =>
    intro ind
    rw [fuelB, stringify_arr_false]
    have h1 := fuelE_le ind es (fun e he => ih e he (ind + 1))
    simp only [List.length_cons, List.length_append, List.length_nil] at h1 ⊢
    omega
  | obj l hsort hkeys hall ih =>
    intro ind
    rw [fuelB, stringify_obj_false]
    have h1 := fuelM_le ind l (fun p hp => ih p hp (ind + 1))
    simp only [List.length_cons, List.length_append, List.length_nil] at h1 ⊢
    omega

theorem rt_parse {v : Json} (hv : RTok v) :
    parse (stringify v false 0) = .ok v := by
  obtain ⟨c, t, hs, hsp, _⟩ := serHead hv 0
  rw [parse]
  rw [hs, skip_whitespace_not_space _ _ hsp, ← hs]
  dsimp only
  have h1 := rt_value hv 0 [] 0 (3 * (stringify v false 0).length + 3)
    (Or.inl rfl) (by have := fuelB_le hv 0; omega)
  rw [List.append_nil] at h1
  rw [h1]
  rfl

theorem parse_sorted : ∀ fuel : Nat,
    (∀ rem pos v rest p2, parse_value fuel rem pos = .ok (v, rest, p2) → ObjSorted v) ∧
    (∀ rem pos v rest p2, parse_array fuel rem pos = .ok (v, rest, p2) → ObjSorted v) ∧
    (∀ rem pos acc v rest p2, (∀ e ∈ acc, ObjSorted e) →
      parse_elems fuel rem pos acc = .ok (v, rest, p2) → ObjSorted v) ∧
    (∀ rem pos v rest p2, parse_object fuel rem pos = .ok (v, rest, p2) → ObjSorted v) ∧
    (∀ rem pos acc v rest p2, SortedKeys acc → (∀ p ∈ acc, ObjSorted p.2) →
      parse_members fuel rem pos acc = .ok (v, rest, p2) → ObjSorted v) := by
  intro fuel
  induction fuel with
  | zero =>
    refine ⟨fun rem pos v rest p2 h => ?_, fun rem pos v rest p2 h => ?_,
      fun rem pos acc v rest p2 _ h => ?_, fun rem pos v rest p2 h => ?_,
      fun rem pos acc v rest p2 _ _ h => ?_⟩
    · rw [parse_value] at h; exact absurd h (by simp)
    · rw [parse_array] at h; exact absurd h (by simp)
    · rw [parse_elems] at h; exact absurd h (by simp)
    · rw [parse_object] at h; exact absurd h (by simp)
    · rw [parse_members] at h; exact absurd h (by simp)
  | succ f ih =>
    obtain ⟨ihv, iha, ihe, iho, ihm⟩ := ih
    refine ⟨?_, ?_, ?_, ?_, ?_⟩
    · intro rem pos v rest p2 h
      rw [parse_value] at h
      try dsimp only at h
      split at h
      · simp at h
      · split at h
        · rw [parse_null] at h
          split at h
          · injection h with h3; injection h3 with h4 h5; rw [← h4]; exact ObjSorted.null
          · simp at h
        split at h
        · rw [parse_bool] at h
          split at h
          · injection h with h3; injection h3 with h4 h5; rw [← h4]
            exact ObjSorted.bool true
          · split at h
            · injection h with h3; injection h3 with h4 h5; rw [← h4]
              exact ObjSorted.bool false
            · simp at h
        split at h
        · split at h
          · simp at h
          · injection h with h3; injection h3 with h4 h5; rw [← h4]
            exact ObjSorted.str _
        split at h
        · exact iha _ _ _ _ _ h
        split at h
        · exact iho _ _ _ _ _ h
        split at h
        · obtain ⟨sgn, ip, fp, ep, _, _, _, _, _, hj, _⟩ := parse_number_ok h
          rw [hj]
          exact ObjSorted.number _
        · simp at h
    · intro rem pos v rest p2 h
      cases rem with
      | nil => rw [parse_array] at h; simp at h
      | cons c t =>
        rw [parse_array] at h
        split at h
        · try dsimp only at h
          split at h
          · injection h with h3; injection h3 with h4 h5; rw [← h4]
            exact ObjSorted.arr [] (fun e he => absurd he (List.not_mem_nil e))
          · exact ihe _ _ _ _ _ _ (fun e he => absurd he (List.not_mem_nil e)) h
        · simp at h
    · intro rem pos acc v rest p2 hacc h
      rw [parse_elems] at h
      split at h
      · simp at h
      · rename_i v1 rem1 pos1 heq
        have hv1 : ObjSorted v1 := ihv _ _ _ _ _ heq
        try dsimp only at h
        split at h
        · injection h with h3; injection h3 with h4 h5; rw [← h4]
          refine ObjSorted.arr _ (fun e he => ?_)
          rcases List.mem_append.mp he with hmem | hmem
          · exact hacc e hmem
          · rw [List.mem_singleton.mp hmem]
            exact hv1
        split at h
        · refine ihe _ _ _ _ _ _ (fun e he => ?_) h
          rcases List.mem_append.mp he with hmem | hmem
          · exact hacc e hmem
          · rw [List.mem_singleton.mp hmem]
            exact hv1
        · simp at h
    · intro rem pos v rest p2 h
      cases rem with
      | nil => rw [parse_object] at h; simp at h
      | cons c t =>
        rw [parse_object] at h
        split at h
        · try dsimp only at h
          split at h
          · injection h with h3; injection h3 with h4 h5; rw [← h4]
            exact ObjSorted.obj [] List.Pairwise.nil
              (fun p hp => absurd hp (List.not_mem_nil p))
          · exact ihm _ _ _ _ _ _ List.Pairwise.nil
              (fun p hp => absurd hp (List.not_mem_nil p)) h
        · simp at h
    · intro rem pos acc v rest p2 hsrt hvals h
      rw [parse_members] at h
      try dsimp only at h
      split at h
      · split at h
        · simp at h
        · rename_i key rem2 pos2 heq2
          try dsimp only at h
          split at h
          · split at h
            · simp at h
            · rename_i v1 rem5 pos5 heq5
              have hv1 : ObjSorted v1 := ihv _ _ _ _ _ heq5
              try dsimp only at h
              split at h
              · injection h with h3; injection h3 with h4 h5; rw [← h4]
                exact ObjSorted.obj _ (mapInsert_sorted hsrt)
                  (mapInsert_values hvals hv1)
              split at h
              · exact ihm _ _ _ _ _ _ (mapInsert_sorted hsrt)
                  (mapInsert_values hvals hv1) h
              · simp at h
          · simp at h
      · simp at h

theorem parse_ObjSorted {s : List Char} {v : Json} (h : parse s = .ok v) :
    ObjSorted v := by
  rw [parse] at h
  try dsimp only at h
  split at h
  · simp at h
  · rename_i v1 rem2 pos2 heq
    have hv1 : ObjSorted v1 := (parse_sorted _).1 _ _ _ _ _ heq
    split at h
    · injection h with h3
      rw [← h3]
      exact hv1
    · simp at h

theorem natDigitsLE_three : natDigitsLE 3 = [3] := by
  rw [natDigitsLE_pos (by decide), show (3 : Nat) % 10 = 3 from rfl,
    show (3 : Nat) / 10 = 0 from rfl, natDigitsLE_zero]

theorem natDigitsLE_350000 : natDigitsLE 350000 = [0, 0, 0, 0, 5, 3] := by
  rw [natDigitsLE_pos (by decide), show (350000 : Nat) % 10 = 0 from rfl,
    show (350000 : Nat) / 10 = 35000 from rfl]
  rw [natDigitsLE_pos (by decide), show (35000 : Nat) % 10 = 0 from rfl,
    show (35000 : Nat) / 10 = 3500 from rfl]
  rw [natDigitsLE_pos (by decide), show (3500 : Nat) % 10 = 0 from rfl,
    show (3500 : Nat) / 10 = 350 from rfl]
  rw [natDigitsLE_pos (by decide), show (350 : Nat) % 10 = 0 from rfl,
    show (350 : Nat) / 10 = 35 from rfl]
  rw [natDigitsLE_pos (by decide), show (35 : Nat) % 10 = 5 from rfl,
    show (35 : Nat) / 10 = 3 from rfl]
  rw [natDigitsLE_pos (by decide), show (3 : Nat) % 10 = 3 from rfl,
    show (3 : Nat) / 10 = 0 from rfl, natDigitsLE_zero]

theorem natChars_three : natChars 3 = ['3'] := by
  rw [natChars, if_neg (by decide), natDigitsLE_three]
  decide

theorem natChars_350000 : natChars 350000 = ['3', '5', '0', '0', '0', '0'] := by
  rw [natChars, if_neg (by decide), natDigitsLE_350000]
  decide

theorem numChars_three : numChars 3 = ['3'] := by
  have htr : ratTruncLL 3 = 3 := rfl
  rw [numChars, htr, if_pos (by norm_num), intChars, if_neg (by decide)]
  rw [show ((3 : Int).natAbs) = 3 from rfl, natChars_three]

theorem ratFloorI_3p5 : ratFloorI (7 / 2 : Rat) = 3 := by
  rw [ratFloorI, show ((7 : Rat) / 2).num = 7 by norm_num,
    show ((7 : Rat) / 2).den = 2 by norm_num]
  rfl

theorem decExpo_3p5 : decExpo (7 / 2 : Rat) = 0 := by
  rw [decExpo, if_pos (by norm_num : (1 : Rat) ≤ 7 / 2), ratFloorI_3p5,
    show ((3 : Int).toNat) = 3 from rfl, natDigitsLE_three]
  decide

theorem roundHalfEven_350000 : roundHalfEven (350000 : Rat) = 350000 := by
  have hfl : ratFloorI (350000 : Rat) = 350000 := by
    rw [ratFloorI, show (350000 : Rat).num = 350000 by norm_num,
      show (350000 : Rat).den = 1 by norm_num]
    rfl
  rw [roundHalfEven]
  try dsimp only
  rw [hfl]
  norm_num

theorem numChars_3p5 : numChars (7 / 2 : Rat) = ['3', '.', '5'] := by
  have htr : ratTruncLL (7 / 2 : Rat) = 3 := by
    rw [ratTruncLL, show ((7 : Rat) / 2).num = 7 by norm_num,
      show ((7 : Rat) / 2).den = 2 by norm_num]
    rfl
  rw [numChars, htr, if_neg (by norm_num)]
  rw [gFormat, if_neg (by norm_num), if_neg (by norm_num : ¬(7 / 2 : Rat) < 0)]
  try dsimp only
  rw [show |(7 : Rat) / 2| = 7 / 2 from abs_of_pos (by norm_num), decExpo_3p5]
  rw [if_pos (by decide : (0 : Int) ≤ 5)]
  rw [show ((5 - (0 : Int)).toNat) = 5 from rfl]
  rw [show (7 / 2 : Rat) * (10 : Rat) ^ (5 : Nat) = 350000 by norm_num]
  rw [roundHalfEven_350000]
  rw [if_neg (by decide : ¬(350000 : Int) = 10 ^ 6)]
  try dsimp only
  rw [show ((350000 : Int).toNat) = 350000 from rfl, natChars_350000]
  norm_num
  decide

/-- C1: the spec claims `parse (stringify v false) == v` for every value
built without float-precision edge cases, including objects with arbitrary
string keys.  Object keys are emitted raw, without escaping (Json.cpp line
159), so a key containing `"` or `\` breaks the round trip (see
`C1_raw_key_counterexample`); the round trip does hold on `RTok`: values
whose numbers are integral and within the exactly-representable double
range, and whose object keys contain neither `"` nor `\`. -/
theorem C1_roundtrip {v : Json} (hv : RTok v) :
    parse (stringify v false 0) = .ok v := rt_parse hv

/-- C1 witness: the round trip at the concrete object `{"a": 3}`. -/
theorem C1_roundtrip_witness :
    parse (stringify (Json.obj [(['a'], Json.number 3)]) false 0) =
      .ok (Json.obj [(['a'], Json.number 3)]) :=
  C1_roundtrip (RTok.obj _ (List.pairwise_singleton _ _)
    (fun p hp c hc => by
      rcases List.mem_singleton.mp hp with rfl
      rcases List.mem_singleton.mp hc with rfl
      exact ⟨by decide, by decide⟩)
    (fun p hp => by
      rcases List.mem_singleton.mp hp with rfl
      exact RTok.number 3 rfl (by decide)))

/-- C1 counterexample: the object whose single key is the character `"`
(no floating-point values involved) serializes with the key unescaped, and
re-parsing the serialization fails instead of returning the value. -/
theorem C1_raw_key_counterexample :
    parse (stringify (Json.obj [(['"'], Json.null)]) false 0) =
      .error ⟨"Expected \x27:\x27 after key in object", 3⟩ ∧
    parse (stringify (Json.obj [(['"'], Json.null)]) false 0) ≠
      .ok (Json.obj [(['"'], Json.null)]) := by
  have h0 : parse (stringify (Json.obj [(['"'], Json.null)]) false 0) =
      .error ⟨"Expected \x27:\x27 after key in object", 3⟩ := by rfl
  exact ⟨h0, fun h => absurd (h0.symm.trans h) (by simp)⟩

/-- C2: `parse_number` accepts exactly the JSON number grammar of the spec
(`numGrammar`, modelled from the spec's words): on a whole token it
succeeds and consumes everything if and only if the grammar accepts; a `.`
not followed by a digit fails with an invalid-number error whose offset is
the byte right after the dot; an `e`/`E` with optional sign not followed
by a digit fails with an invalid-number error at the byte where the
exponent digit is missing. -/
theorem C2_number_grammar (s : List Char) (pos : Nat) :
    (numGrammar s = true ↔
      parse_number s pos = .ok (.number (stodModel s), [], pos + s.length)) ∧
    (∀ sgn ip t, SignOk sgn → IntPartOk ip → isdigitB (peekc t) = false →
      parse_number (sgn ++ (ip ++ ('.' :: t))) pos =
        .error ⟨"Invalid number: expected digit after decimal point",
          pos + sgn.length + ip.length + 1⟩) ∧
    (∀ sgn ip fp ec sg t, SignOk sgn → IntPartOk ip → FracOk fp →
      (ec = 'e' ∨ ec = 'E') → (sg = [] ∨ sg = ['+'] ∨ sg = ['-']) →
      isdigitB (peekc t) = false → (sg = [] → peekc t ≠ '+' ∧ peekc t ≠ '-') →
      parse_number (sgn ++ (ip ++ (fp ++ (ec :: (sg ++ t))))) pos =
        .error ⟨"Invalid number: expected digit in exponent",
          pos + sgn.length + ip.length + fp.length + (1 + sg.length)⟩) := by
  refine ⟨⟨fun hg => ?_, fun hok => ?_⟩,
    fun sgn ip t hs hip ht => parse_number_dot_fail t pos hs hip ht,
    fun sgn ip fp ec sg t hs hip hfp he hsg ht htsg =>
      parse_number_exp_fail t pos hs hip hfp he hsg ht htsg⟩
  · obtain ⟨sgn, ip, fp, ep, rfl, hs, hip, hfp, hep⟩ := shape_of_numGrammar hg
    have hnr : NumRestOk fp ep [] := ⟨by rw [peekc_nil]; decide,
      fun _ => ⟨by rw [peekc_nil]; decide, by rw [peekc_nil]; decide⟩,
      fun _ _ => by rw [peekc_nil]; decide⟩
    have h := parse_number_token [] pos hs hip hfp hep hnr
    simp only [List.append_nil] at h
    rw [h]
    refine congrArg Except.ok (Prod.ext ?_ (Prod.ext rfl ?_))
    · rw [show sgn ++ ip ++ fp ++ ep = sgn ++ (ip ++ (fp ++ ep)) by
        simp [List.append_assoc]]
    · simp only [List.length_append]
      omega
  · obtain ⟨sgn, ip, fp, ep, hs, hip, hfp, hep, hrem, hj, hpos⟩ := parse_number_ok hok
    subst hrem
    simp only [List.append_nil]
    exact numGrammar_of_shape hs hip hfp hep

/-- C2 witness: the full token `-12.5e+3` is accepted and consumed; `1.x`
fails right after the dot. -/
theorem C2_number_grammar_witness :
    numGrammar "-12.5e+3".toList = true ∧
    parse_number "-12.5e+3".toList 0 =
      .ok (.number (stodModel "-12.5e+3".toList), [], 0 + ("-12.5e+3".toList).length) ∧
    parse_number (([] : List Char) ++ (['1'] ++ ('.' :: ['x']))) 0 =
      .error ⟨"Invalid number: expected digit after decimal point",
        0 + ([] : List Char).length + ['1'].length + 1⟩ :=
  ⟨by decide, (C2_number_grammar "-12.5e+3".toList 0).1.mp (by decide),
    (C2_number_grammar "-12.5e+3".toList 0).2.1 [] ['1'] ['x'] (Or.inl rfl)
      (Or.inr ⟨'1', [], rfl, by decide, by decide,
        fun d hd => absurd hd (List.not_mem_nil d)⟩)
      (by decide)⟩

theorem natDigitsLE_two : natDigitsLE 2 = [2] := by
  rw [natDigitsLE_pos (by decide), show (2 : Nat) % 10 = 2 from rfl,
    show (2 : Nat) / 10 = 0 from rfl, natDigitsLE_zero]

theorem stodModel_two : stodModel ['2'] = 2 := by
  have h : intChars 2 = ['2'] := by
    rw [intChars, if_neg (by decide), show ((2 : Int).natAbs) = 2 from rfl,
      natChars, if_neg (by decide), natDigitsLE_two]
    decide
  rw [← h, stodModel_intChars]
  norm_num

theorem parse_dup_keys_eval : parse "\x7b\"a\":1,\"a\":2\x7d".toList =
    .ok (.obj [(['a'], .number 2)]) := by
  rw [show parse "\x7b\"a\":1,\"a\":2\x7d".toList =
    .ok (.obj [(['a'], .number (stodModel ['2']))]) from by rfl, stodModel_two]

/-- C3: a `\uXXXX` escape whose four characters are hexadecimal digits
appends exactly one character to the string payload: the literal ASCII
character of the decoded code point when that code point is below 128, and
the literal `?` placeholder when it is 128 or greater (Json.cpp lines
330-349). -/
theorem C3_unicode_escape {h1 h2 h3 h4 : Char} (t : List Char) (pos fuel : Nat)
    (acc : List Char) (hx1 : ishexB h1 = true) (hx2 : ishexB h2 = true)
    (hx3 : ishexB h3 = true) (hx4 : ishexB h4 = true) :
    parse_string_loop (fuel + 1) ('\\' :: 'u' :: h1 :: h2 :: h3 :: h4 :: t) pos acc =
      parse_string_loop fuel t (pos + 6)
        (acc ++ [if List.foldl (fun a c => 16 * a + hexDigitVal c) 0 [h1, h2, h3, h4] < 128
          then Char.ofNat (List.foldl (fun a c => 16 * a + hexDigitVal c) 0 [h1, h2, h3, h4])
          else '?']) := by
  rw [parse_string_loop_succ]
  have hstep : psl_step ('\\' :: 'u' :: h1 :: h2 :: h3 :: h4 :: t) pos =
      .push (if List.foldl (fun a c => 16 * a + hexDigitVal c) 0 [h1, h2, h3, h4] < 128
        then Char.ofNat (List.foldl (fun a c => 16 * a + hexDigitVal c) 0 [h1, h2, h3, h4])
        else '?') t (pos + 6) := by
    show (if 4 ≤ (h1 :: h2 :: h3 :: h4 :: t).length then
        match stoiHex (List.take 4 (h1 :: h2 :: h3 :: h4 :: t)) with
        | none => PslStep.fail ⟨"Invalid unicode escape", pos + 2⟩
        | some cp =>
          PslStep.push (if cp < 128 then Char.ofNat ((cp % 256).toNat) else '?')
            (List.drop 4 (h1 :: h2 :: h3 :: h4 :: t)) (pos + 6)
      else PslStep.fail ⟨"Invalid unicode escape", pos + 2⟩) = _
    rw [if_pos (show 4 ≤ (h1 :: h2 :: h3 :: h4 :: t).length by simp),
      show List.take 4 (h1 :: h2 :: h3 :: h4 :: t) = [h1, h2, h3, h4] from rfl,
      show List.drop 4 (h1 :: h2 :: h3 :: h4 :: t) = t from rfl,
      stoiHex_hex4 hx1 hx2 hx3 hx4]
    show PslStep.push (if Int.ofNat (List.foldl (fun a c => 16 * a + hexDigitVal c) 0
        [h1, h2, h3, h4]) < 128
      then Char.ofNat ((Int.ofNat (List.foldl (fun a c => 16 * a + hexDigitVal c) 0
        [h1, h2, h3, h4]) % 256).toNat) else '?') t (pos + 6) = _
    by_cases hlt : List.foldl (fun a c => 16 * a + hexDigitVal c) 0 [h1, h2, h3, h4] < 128
    · rw [if_pos (show Int.ofNat (List.foldl (fun a c => 16 * a + hexDigitVal c) 0
          [h1, h2, h3, h4]) < 128 by rw [Int.ofNat_eq_natCast]; omega)]
      rw [show ((Int.ofNat (List.foldl (fun a c => 16 * a + hexDigitVal c) 0
          [h1, h2, h3, h4])) % 256).toNat =
          List.foldl (fun a c => 16 * a + hexDigitVal c) 0 [h1, h2, h3, h4] by
        rw [Int.ofNat_eq_natCast]; omega]
      rw [if_pos hlt]
    · rw [if_neg (show ¬(Int.ofNat (List.foldl (fun a c => 16 * a + hexDigitVal c) 0
          [h1, h2, h3, h4]) < 128) by rw [Int.ofNat_eq_natCast]; omega)]
      rw [if_neg hlt]
  rw [hstep]

/-- C3 witness: the escape `A` appends the single character `A`. -/
theorem C3_unicode_escape_witness :
    ishexB '0' = true ∧ ishexB '4' = true ∧ ishexB '1' = true ∧
    parse_string_loop 2 ('\\' :: 'u' :: '0' :: '0' :: '4' :: '1' :: ['"']) 0 [] =
      parse_string_loop 1 ['"'] 6
        ([] ++ [if List.foldl (fun a c => 16 * a + hexDigitVal c) 0
            ['0', '0', '4', '1'] < 128
          then Char.ofNat (List.foldl (fun a c => 16 * a + hexDigitVal c) 0
            ['0', '0', '4', '1'])
          else '?']) :=
  ⟨by decide, by decide, by decide,
    C3_unicode_escape ['"'] 0 1 [] (by decide) (by decide) (by decide) (by decide)⟩

/-- C4: code bug.  The spec mandates checked access with an explicit
`IndexOutOfRange` error, but `Json::operator[](size_t)` (Json.cpp lines
59-67) indexes the backing `std::vector` with unchecked `operator[]`: an
out-of-range position on an `Array` is undefined behaviour, and no error
of any kind is raised. -/
theorem C4_index_unchecked (es : List Json) (i : Nat) (h : es.length ≤ i) :
    atIdx (.arr es) i = .error .undefinedBehavior ∧
    ∀ msg, atIdx (.arr es) i ≠ .error (.runtimeError msg) := by
  have h1 : atIdx (.arr es) i = .error .undefinedBehavior := by
    rw [atIdx]
    show (if hlt : i < es.length then Except.ok (es.get ⟨i, hlt⟩)
      else Except.error AccessErr.undefinedBehavior) =
      Except.error AccessErr.undefinedBehavior
    rw [dif_neg (by omega)]
  exact ⟨h1, fun msg hmsg => absurd (h1.symm.trans hmsg) (by simp)⟩

/-- C4 witness: position 0 on the empty array reaches the unchecked read. -/
theorem C4_index_unchecked_witness :
    ([] : List Json).length ≤ 0 ∧
    atIdx (.arr []) 0 = .error .undefinedBehavior :=
  ⟨by decide, (C4_index_unchecked [] 0 (by decide)).1⟩

/-- C5: on an `Object`, the mutable key-index operator returns the stored
value when the key is present, and otherwise value-initialises a `Null`
entry at the key and returns it (auto-vivification); the immutable form
returns the stored value when the key is present and fails with the
key-not-found `runtime_error` when it is absent, leaving the object
unchanged (Json.cpp lines 69-81). -/
theorem C5_key_access (l : List (List Char × Json)) (key : List Char) :
    (∀ v, mapFind l key = some v → atKeyMut (.obj l) key = .ok (v, .obj l)) ∧
    (mapFind l key = none →
      atKeyMut (.obj l) key = .ok (.null, .obj (mapInsert l key .null)) ∧
      mapFind (mapInsert l key .null) key = some .null) ∧
    (mapFind l key = none →
      atKeyConst (.obj l) key =
        .error (.runtimeError ("Key not found: " ++ String.mk key))) ∧
    (∀ v, mapFind l key = some v → atKeyConst (.obj l) key = .ok v) := by
  refine ⟨fun v hv => ?_, fun hn => ⟨?_, mapFind_mapInsert_self l key .null⟩,
    fun hn => ?_, fun v hv => ?_⟩
  · rw [atKeyMut, hv]
  · rw [atKeyMut, hn]
  · rw [atKeyConst, hn]
  · rw [atKeyConst, hv]

/-- C5 witness: the key `a` absent from the empty object. -/
theorem C5_key_access_witness :
    atKeyMut (.obj []) ['a'] = .ok (.null, .obj (mapInsert [] ['a'] .null)) ∧
    mapFind (mapInsert [] ['a'] Json.null) ['a'] = some .null ∧
    atKeyConst (.obj []) ['a'] =
      .error (.runtimeError ("Key not found: " ++ String.mk ['a'])) :=
  ⟨((C5_key_access [] ['a']).2.1 rfl).1, ((C5_key_access [] ['a']).2.1 rfl).2,
    (C5_key_access [] ['a']).2.2.1 rfl⟩

/-- C6: building an object — whether through the parser's member loop or
programmatically through `operator[]` — goes through the `std::map`
insert-or-overwrite (`mapInsert`): a duplicate key overwrites the previous
value, lookup after insert finds the new value, and sortedness of the
member list is preserved; in particular `parse("{\"a\":1,\"a\":2}")["a"]`
holds the number 2, and every value the parser returns has all its object
member lists in strict key sort order (`ObjSorted`), which is the map's
iteration order. -/
theorem C6_duplicate_keys :
    (∀ (l : List (List Char × Json)) (k : List Char) (v : Json),
      mapFind (mapInsert l k v) k = some v ∧
      (SortedKeys l → SortedKeys (mapInsert l k v))) ∧
    parse "\x7b\"a\":1,\"a\":2\x7d".toList = .ok (.obj [(['a'], .number 2)]) ∧
    atKeyConst (.obj [(['a'], .number 2)]) ['a'] = .ok (.number 2) ∧
    as_number (.number 2) = .ok 2 ∧
    (∀ (s : List Char) (v : Json), parse s = .ok v → ObjSorted v) :=
  ⟨fun l k v => ⟨mapFind_mapInsert_self l k v, fun hs => mapInsert_sorted hs⟩,
    parse_dup_keys_eval, rfl, rfl, fun s v h => parse_ObjSorted h⟩

/-- C6 witness: overwriting the key `a`, and the sortedness of the parsed
duplicate-key object. -/
theorem C6_duplicate_keys_witness :
    mapFind (mapInsert [(['a'], Json.number 1)] ['a'] (.number 2)) ['a'] =
      some (.number 2) ∧
    SortedKeys (mapInsert [(['a'], Json.number 1)] ['a'] (.number 2)) ∧
    ObjSorted (Json.obj [(['a'], Json.number 2)]) :=
  ⟨(C6_duplicate_keys.1 [(['a'], Json.number 1)] ['a'] (.number 2)).1,
    (C6_duplicate_keys.1 [(['a'], Json.number 1)] ['a'] (.number 2)).2
      (List.pairwise_singleton _ _),
    C6_duplicate_keys.2.2.2.2 "\x7b\"a\":1,\"a\":2\x7d".toList _
      C6_duplicate_keys.2.1⟩

/-- C7: `stringify` prints a `Number` as a bare integer, with no decimal
point, exactly when the stored value equals its truncation to `long long`
(`ratTruncLL`), and otherwise with the stream's default floating
formatting (`gFormat`); in particular 3.0 prints as `3` and 3.5 prints as
`3.5` (Json.cpp lines 101-109). -/
theorem C7_number_format :
    (∀ q : Rat, q = ((ratTruncLL q : Int) : Rat) →
      stringify (.number q) false 0 = intChars (ratTruncLL q) ∧
      '.' ∉ stringify (.number q) false 0) ∧
    (∀ q : Rat, q ≠ ((ratTruncLL q : Int) : Rat) →
      stringify (.number q) false 0 = gFormat q) ∧
    stringify (.number 3) false 0 = ['3'] ∧
    stringify (.number (7 / 2 : Rat)) false 0 = ['3', '.', '5'] := by
  refine ⟨fun q hq => ⟨?_, ?_⟩, fun q hq => ?_, ?_, ?_⟩
  · rw [stringify, numChars, if_pos hq]
  · rw [stringify, numChars, if_pos hq]
    exact intChars_no_dot _
  · rw [stringify, numChars, if_neg hq]
  · rw [stringify, numChars_three]
  · rw [stringify, numChars_3p5]

/-- C7 witness: 3.0 is integral, prints as the bare integer `3` with no
decimal point. -/
theorem C7_number_format_witness :
    (3 : Rat) = ((ratTruncLL 3 : Int) : Rat) ∧
    stringify (.number 3) false 0 = intChars (ratTruncLL 3) ∧
    '.' ∉ stringify (.number 3) false 0 := by
  have h : (3 : Rat) = ((ratTruncLL 3 : Int) : Rat) := by
    rw [show ratTruncLL 3 = 3 from rfl]
    norm_num
  exact ⟨h, (C7_number_format.1 3 h).1, (C7_number_format.1 3 h).2⟩

/-- C8: `parse("{\"a\": 1,}")` fails with a parse error at byte offset 8,
the position of the stray `}` after the trailing comma: the member loop
has consumed the comma and requires a string key (Json.cpp lines 414-418,
431-439); no partial result is returned. -/
theorem C8_trailing_comma :
    parse "\x7b\"a\": 1,\x7d".toList =
      .error ⟨"Expected string key in object", 8⟩ ∧
    ("\x7b\"a\": 1,\x7d".toList)[8]? = some '\x7d' :=
  ⟨by rfl, by rfl⟩

/-- C9: the `\uXXXX` decoder calls `std::stoi(hex, nullptr, 16)`, which
succeeds whenever the four-character block has a usable prefix — in
particular whenever its first character is a hexadecimal digit — so
not-all-hex blocks such as `00g1` parse without error (prefix value 0);
moreover `stoi` with base 16 itself accepts a `0x` prefix, so `\u0x1f`
decodes to code point 31 (not to the value 0 of the leading digit prefix,
as a prefix-only reading would suggest; see `C9_hex_prefix_counterexample`).
All four characters are consumed either way. -/
theorem C9_stoi_prefix_decoding :
    parse "\"\\u00g1\"".toList = .ok (.str [Char.ofNat 0]) ∧
    parse "\"\\u0x1f\"".toList = .ok (.str [Char.ofNat 31]) ∧
    (∀ (h1 h2 h3 h4 : Char) (t : List Char) (pos fuel : Nat) (acc : List Char),
      ishexB h1 = true →
      ∃ c, parse_string_loop (fuel + 1)
          ('\\' :: 'u' :: h1 :: h2 :: h3 :: h4 :: t) pos acc =
        parse_string_loop fuel t (pos + 6) (acc ++ [c])) := by
  refine ⟨by rfl, by rfl, fun h1 h2 h3 h4 t pos fuel acc hx1 => ?_⟩
  obtain ⟨cp, hcp⟩ := stoiHex_first_hex h2 h3 h4 hx1
  refine ⟨if cp < 128 then Char.ofNat ((cp % 256).toNat) else '?', ?_⟩
  rw [parse_string_loop_succ]
  have hstep : psl_step ('\\' :: 'u' :: h1 :: h2 :: h3 :: h4 :: t) pos =
      .push (if cp < 128 then Char.ofNat ((cp % 256).toNat) else '?') t (pos + 6) := by
    show (if 4 ≤ (h1 :: h2 :: h3 :: h4 :: t).length then
        match stoiHex (List.take 4 (h1 :: h2 :: h3 :: h4 :: t)) with
        | none => PslStep.fail ⟨"Invalid unicode escape", pos + 2⟩
        | some cp =>
          PslStep.push (if cp < 128 then Char.ofNat ((cp % 256).toNat) else '?')
            (List.drop 4 (h1 :: h2 :: h3 :: h4 :: t)) (pos + 6)
      else PslStep.fail ⟨"Invalid unicode escape", pos + 2⟩) = _
    rw [if_pos (show 4 ≤ (h1 :: h2 :: h3 :: h4 :: t).length by simp),
      show List.take 4 (h1 :: h2 :: h3 :: h4 :: t) = [h1, h2, h3, h4] from rfl,
      show List.drop 4 (h1 :: h2 :: h3 :: h4 :: t) = t from rfl, hcp]
  rw [hstep]

/-- C9 witness: the escape with block `00g1` (a non-hex third character)
is consumed whole by the loop. -/
theorem C9_stoi_prefix_witness :
    ishexB '0' = true ∧
    ∃ c, parse_string_loop 2 ('\\' :: 'u' :: '0' :: '0' :: 'g' :: '1' :: ['"']) 0 [] =
      parse_string_loop 1 ['"'] 6 ([] ++ [c]) :=
  ⟨by decide, C9_stoi_prefix_decoding.2.2 '0' '0' 'g' '1' ['"'] 0 1 [] (by decide)⟩

/-- C9 counterexample: for `\u0x1f` the decoded character is code point 31
(`stoi` consumes the `0x` prefix), not the value 0 of the longest leading
run of hexadecimal digits (`0`), so the claim's description of the decoded
value is wrong. -/
theorem C9_hex_prefix_counterexample :
    parse "\"\\u0x1f\"".toList = .ok (.str [Char.ofNat 31]) ∧
    Json.str [Char.ofNat 31] ≠ Json.str [Char.ofNat 0] := by
  refine ⟨by rfl, fun h => ?_⟩
  injection h with hs
  injection hs with hc
  have h2 := congrArg Char.toNat hc
  rw [toNat_ofNat_small 31 (by omega), toNat_ofNat_small 0 (by omega)] at h2
  omega

/-- C10: the parser skips exactly the bytes `std::isspace` accepts in the
C locale — space, `\t`, `\n`, `\v`, `\f`, `\r` — between tokens; inputs
led by `\f` or `\v` therefore parse (Json.cpp lines 215-220). -/
theorem C10_whitespace :
    (∀ c : Char, isspaceB c = true ↔
      (c = ' ' ∨ c = '\t' ∨ c = '\n' ∨ c = '\x0b' ∨ c = '\x0c' ∨ c = '\r')) ∧
    (∀ (c : Char) (t : List Char) (pos : Nat), isspaceB c = true →
      skip_whitespace (c :: t) pos = skip_whitespace t (pos + 1)) ∧
    parse "\x0c[]".toList = .ok (.arr []) ∧
    parse "\x0b[]".toList = .ok (.arr []) := by
  refine ⟨fun c => ?_, fun c t pos h => skip_whitespace_space t pos h, by rfl, by rfl⟩
  rw [isspaceB]
  simp [Bool.or_eq_true, decide_eq_true_eq, or_assoc]

/-- C10 witness: the vertical tab is whitespace and is skipped. -/
theorem C10_whitespace_witness :
    isspaceB '\x0b' = true ∧
    skip_whitespace ['\x0b', '['] 0 = skip_whitespace ['['] (0 + 1) :=
  ⟨by decide, C10_whitespace.2.1 '\x0b' ['['] 0 (by decide)⟩

end JsonCpp
